import Mathlib

/-!
Shallow embedding of the tickit-sync merge engine (src/db.rs).

Identifiers (UUIDs in the source) are modelled as `Nat`; timestamps
(RFC3339 strings compared as chronological `DateTime` values in the
source) are modelled as `Nat`, since only their total order matters.
Each SQLite table is modelled as an association list from its primary
key to the remaining columns of the row.
-/

namespace TickitSync

/-- `Priority` from src/models.rs. -/
inductive Priority
  | low
  | medium
  | high
  | urgent
deriving DecidableEq

/-- `RecordType` from src/models.rs (tombstone record kinds). -/
inductive RecordType
  | task
  | list
  | tag
  | taskTag
deriving DecidableEq

/-- Incoming `Task` change record (src/models.rs). -/
structure TaskRec where
  id : Nat
  title : String
  description : Option String
  url : Option String
  priority : Priority
  completed : Bool
  list_id : Nat
  tag_ids : List Nat
  created_at : Nat
  updated_at : Nat
  completed_at : Option Nat
  due_date : Option Nat
deriving DecidableEq

/-- Incoming `List` change record (src/models.rs). -/
structure ListRec where
  id : Nat
  name : String
  description : Option String
  icon : String
  color : Option String
  is_inbox : Bool
  created_at : Nat
  updated_at : Nat
  sort_order : Int
deriving DecidableEq

/-- Incoming `Tag` change record (the fields read by src/db.rs). -/
structure TagRec where
  id : Nat
  name : String
  color : String
  created_at : Nat
deriving DecidableEq

/-- Incoming `TaskTagLink` change record (src/models.rs). -/
structure LinkRec where
  task_id : Nat
  tag_id : Nat
  created_at : Nat
deriving DecidableEq

/-- `SyncRecord` tagged union from src/models.rs. -/
inductive SyncRecord
  | task (t : TaskRec)
  | list (l : ListRec)
  | tag (g : TagRec)
  | taskTag (lk : LinkRec)
  | deleted (id : Nat) (record_type : RecordType) (deleted_at : Nat)
deriving DecidableEq

/-- Stored row of the `tasks` table (non-key columns). -/
structure TaskRow where
  title : String
  description : Option String
  url : Option String
  priority : Priority
  completed : Bool
  list_id : Nat
  created_at : Nat
  updated_at : Nat
  completed_at : Option Nat
  due_date : Option Nat
deriving DecidableEq

/-- Stored row of the `lists` table (non-key columns). -/
structure ListRow where
  name : String
  description : Option String
  icon : String
  color : Option String
  is_inbox : Bool
  sort_order : Int
  created_at : Nat
  updated_at : Nat
deriving DecidableEq

/-- Stored row of the `tags` table (non-key columns). -/
structure TagRow where
  name : String
  color : String
  created_at : Nat
deriving DecidableEq

/-- Stored row of the `task_tags` table (non-key column). -/
structure LinkRow where
  created_at : Nat
deriving DecidableEq

/-- Stored row of the `tombstones` table (non-key columns). -/
structure TombRow where
  record_type : RecordType
  deleted_at : Nat
deriving DecidableEq

/-- The whole database state: one association list per table.
`task_tags` is keyed by the composite `(task_id, tag_id)` primary key. -/
structure St where
  lists : List (Nat × ListRow)
  tags : List (Nat × TagRow)
  tasks : List (Nat × TaskRow)
  taskTags : List ((Nat × Nat) × LinkRow)
  tombstones : List (Nat × TombRow)
deriving DecidableEq

/-- The empty database. -/
def emptySt : St := ⟨[], [], [], [], []⟩

section Assoc

variable {α β : Type} [DecidableEq α]

/-- Point lookup by primary key (first matching row). -/
def lookupA : List (α × β) → α → Option β
  | [], _ => none
  | (a, b) :: rest, k => if a = k then some b else lookupA rest k

/-- Remove every row whose key equals `k`. -/
def eraseKey : List (α × β) → α → List (α × β)
  | [], _ => []
  | (a, b) :: rest, k => if a = k then eraseKey rest k else (a, b) :: eraseKey rest k

/-- Insert a row, replacing any row with the same key. -/
def setA (l : List (α × β)) (k : α) (v : β) : List (α × β) :=
  (k, v) :: eraseKey l k

/-- Number of rows whose key equals `k`. -/
def countKey (l : List (α × β)) (k : α) : Nat :=
  (l.filter (fun p => decide (p.1 = k))).length

/-- The two tables agree on every point lookup. -/
def sameTable (l1 l2 : List (α × β)) : Prop :=
  ∀ k, lookupA l1 k = lookupA l2 k

end Assoc


/-! ## The merge engine operations, translated from src/db.rs -/

/-- The row written by the `UPDATE tasks SET ...` statement of
`upsert_task`: every column except `created_at` comes from the incoming
record; `created_at` keeps the stored value (it is not in the SET list). -/
def taskUpdateRow (row : TaskRow) (t : TaskRec) : TaskRow :=
  { row with
    title := t.title
    description := t.description
    url := t.url
    priority := t.priority
    completed := t.completed
    list_id := t.list_id
    updated_at := t.updated_at
    completed_at := t.completed_at
    due_date := t.due_date }

/-- The row written by the `INSERT INTO tasks ...` statement of `upsert_task`. -/
def taskInsertRow (t : TaskRec) : TaskRow :=
  ⟨t.title, t.description, t.url, t.priority, t.completed, t.list_id,
    t.created_at, t.updated_at, t.completed_at, t.due_date⟩

/-- `DELETE FROM task_tags WHERE task_id = ?1`. -/
def eraseTaskLinks (l : List ((Nat × Nat) × LinkRow)) (tid : Nat) :
    List ((Nat × Nat) × LinkRow) :=
  l.filter (fun p => decide (p.1.1 ≠ tid))

/-- `INSERT OR IGNORE INTO task_tags (task_id, tag_id, created_at)`. -/
def insertLinkIgnore (l : List ((Nat × Nat) × LinkRow)) (tid g ts : Nat) :
    List ((Nat × Nat) × LinkRow) :=
  match lookupA l (tid, g) with
  | some _ => l
  | none => setA l (tid, g) ⟨ts⟩

/-- The tag-membership replacement at the end of `upsert_task`: delete all
links of the task, then insert one link per incoming tag id (ignoring
duplicates), each stamped with the current wall-clock time `now`. -/
def updateTaskTags (now : Nat) (t : TaskRec)
    (l : List ((Nat × Nat) × LinkRow)) : List ((Nat × Nat) × LinkRow) :=
  t.tag_ids.foldl (fun acc g => insertLinkIgnore acc t.id g now)
    (eraseTaskLinks l t.id)

/-- `upsert_task` from src/db.rs. Returns the new state and the conflict,
if any. On conflict (incoming `updated_at` ≤ stored) it returns before
touching the store, so the tag links are not replaced either. -/
def upsert_task (now : Nat) (t : TaskRec) (s : St) : St × Option Nat :=
  match lookupA s.tasks t.id with
  | some row =>
    if t.updated_at ≤ row.updated_at then (s, some t.id)
    else
      ({ s with
          tasks := setA s.tasks t.id (taskUpdateRow row t)
          taskTags := updateTaskTags now t s.taskTags }, none)
  | none =>
      ({ s with
          tasks := setA s.tasks t.id (taskInsertRow t)
          taskTags := updateTaskTags now t s.taskTags }, none)

/-- The row written by the `UPDATE lists SET ...` statement of
`upsert_list`: `is_inbox` and `created_at` are not in the SET list, so
they keep the stored values. -/
def listUpdateRow (row : ListRow) (l : ListRec) : ListRow :=
  { row with
    name := l.name
    description := l.description
    icon := l.icon
    color := l.color
    sort_order := l.sort_order
    updated_at := l.updated_at }

/-- The row written by the `INSERT INTO lists ...` statement of `upsert_list`. -/
def listInsertRow (l : ListRec) : ListRow :=
  ⟨l.name, l.description, l.icon, l.color, l.is_inbox, l.sort_order,
    l.created_at, l.updated_at⟩

/-- `upsert_list` from src/db.rs. -/
def upsert_list (l : ListRec) (s : St) : St × Option Nat :=
  match lookupA s.lists l.id with
  | some row =>
    if l.updated_at ≤ row.updated_at then (s, some l.id)
    else ({ s with lists := setA s.lists l.id (listUpdateRow row l) }, none)
  | none => ({ s with lists := setA s.lists l.id (listInsertRow l) }, none)

/-- `upsert_tag` from src/db.rs: `INSERT OR REPLACE`, unconditional. -/
def upsert_tag (g : TagRec) (s : St) : St :=
  { s with tags := setA s.tags g.id ⟨g.name, g.color, g.created_at⟩ }

/-- `upsert_task_tag` from src/db.rs: `INSERT OR IGNORE` keyed by
`(task_id, tag_id)`. -/
def upsert_task_tag (lk : LinkRec) (s : St) : St :=
  { s with taskTags := insertLinkIgnore s.taskTags lk.task_id lk.tag_id lk.created_at }

/-- `apply_delete` from src/db.rs: write/replace the tombstone, then
physically delete the row — except a List row with `is_inbox` set, which
survives (`DELETE FROM lists WHERE id = ?1 AND is_inbox = 0`). A TaskTag
deletion removes every link of the given task id. -/
def apply_delete (id : Nat) (rt : RecordType) (dt : Nat) (s : St) : St :=
  let s1 : St := { s with tombstones := setA s.tombstones id ⟨rt, dt⟩ }
  match rt with
  | RecordType.task => { s1 with tasks := eraseKey s1.tasks id }
  | RecordType.list =>
      { s1 with
        lists := s1.lists.filter (fun p => decide (¬(p.1 = id ∧ p.2.is_inbox = false))) }
  | RecordType.tag => { s1 with tags := eraseKey s1.tags id }
  | RecordType.taskTag => { s1 with taskTags := eraseTaskLinks s1.taskTags id }

/-- One iteration of the `for change in changes` loop of `apply_changes`:
dispatch on the record kind. Only Task and List upserts can yield a
conflict. -/
def applyRecord (now : Nat) (s : St) (r : SyncRecord) : St × Option Nat :=
  match r with
  | SyncRecord.task t => upsert_task now t s
  | SyncRecord.list l => upsert_list l s
  | SyncRecord.tag g => (upsert_tag g s, none)
  | SyncRecord.taskTag lk => (upsert_task_tag lk s, none)
  | SyncRecord.deleted id rt dt => (apply_delete id rt dt s, none)

/-- `apply_changes` from src/db.rs: process the records in the order they
appear in the batch, collecting conflicts in encounter order. -/
def apply_changes (now : Nat) (changes : List SyncRecord) (s : St) :
    St × List Nat :=
  match changes with
  | [] => (s, [])
  | r :: rest =>
    let p1 := applyRecord now s r
    let p2 := apply_changes now rest p1.1
    (p2.1, p1.2.toList ++ p2.2)

/-! ## The change extractor, translated from `get_changes_since` -/

/-- The `WHERE ts > ?1` filter; with no watermark every row qualifies. -/
def sinceFilter (since : Option Nat) (ts : Nat) : Bool :=
  match since with
  | none => true
  | some w => decide (w < ts)

/-- Reassemble a `List` change record from a stored row (collect_lists). -/
def listRecOf (id : Nat) (row : ListRow) : ListRec :=
  ⟨id, row.name, row.description, row.icon, row.color, row.is_inbox,
    row.created_at, row.updated_at, row.sort_order⟩

/-- Reassemble a `Tag` change record from a stored row (collect_tags). -/
def tagRecOf (id : Nat) (row : TagRow) : TagRec :=
  ⟨id, row.name, row.color, row.created_at⟩

/-- `SELECT tag_id FROM task_tags WHERE task_id = ?1`. -/
def tagIdsOf (links : List ((Nat × Nat) × LinkRow)) (tid : Nat) : List Nat :=
  (links.filter (fun p => decide (p.1.1 = tid))).map (fun p => p.1.2)

/-- Reassemble a `Task` change record from a stored row, with its live
tag id set fetched from `task_tags` (collect_tasks). -/
def taskRecOf (links : List ((Nat × Nat) × LinkRow)) (id : Nat)
    (row : TaskRow) : TaskRec :=
  ⟨id, row.title, row.description, row.url, row.priority, row.completed,
    row.list_id, tagIdsOf links id, row.created_at, row.updated_at,
    row.completed_at, row.due_date⟩

/-- `get_changes_since` from src/db.rs: Lists and Tasks with
`updated_at` > watermark, Tags with `created_at` > watermark, Tombstones
with `deleted_at` > watermark; with no watermark, everything. Output
order: Lists, Tags, Tasks, Deleted. -/
def get_changes_since (s : St) (since : Option Nat) : List SyncRecord :=
  ((s.lists.filter (fun p => sinceFilter since p.2.updated_at)).map
      (fun p => SyncRecord.list (listRecOf p.1 p.2)))
    ++ ((s.tags.filter (fun p => sinceFilter since p.2.created_at)).map
      (fun p => SyncRecord.tag (tagRecOf p.1 p.2)))
    ++ ((s.tasks.filter (fun p => sinceFilter since p.2.updated_at)).map
      (fun p => SyncRecord.task (taskRecOf s.taskTags p.1 p.2)))
    ++ ((s.tombstones.filter (fun p => sinceFilter since p.2.deleted_at)).map
      (fun p => SyncRecord.deleted p.1 p.2.record_type p.2.deleted_at))

/-- Extensional equality of database states: every table answers every
point lookup identically. -/
def EquivSt (s1 s2 : St) : Prop :=
  sameTable s1.lists s2.lists ∧ sameTable s1.tags s2.tags ∧
    sameTable s1.tasks s2.tasks ∧ sameTable s1.taskTags s2.taskTags ∧
    sameTable s1.tombstones s2.tombstones

/-- Recognizer for `List` records. -/
def isListRec : SyncRecord → Bool
  | SyncRecord.list _ => true
  | _ => false

/-- Recognizer for `Tag` records. -/
def isTagRec : SyncRecord → Bool
  | SyncRecord.tag _ => true
  | _ => false

/-- Recognizer for `TaskTagLink` records. -/
def isLinkRec : SyncRecord → Bool
  | SyncRecord.taskTag _ => true
  | _ => false

/-- Recognizer for `Task` records. -/
def isTaskRec : SyncRecord → Bool
  | SyncRecord.task _ => true
  | _ => false

/-- Recognizer for `Deleted` records. -/
def isDeletedRec : SyncRecord → Bool
  | SyncRecord.deleted _ _ _ => true
  | _ => false

/-- The batch application the spec describes: partition the batch by
record kind and apply the kinds in the fixed order List, Tag,
TaskTagLink, Task, and Deletion last, regardless of the order in which
the records appear in the input. Stated from the spec's words, for
comparison against `apply_changes`. -/
def apply_changes_spec_order (now : Nat) (changes : List SyncRecord)
    (s : St) : St × List Nat :=
  apply_changes now
    (changes.filter isListRec ++ changes.filter isTagRec ++
      changes.filter isLinkRec ++ changes.filter isTaskRec ++
      changes.filter isDeletedRec) s

/-- A record that is a plain upsert: not a Deletion and not a
TaskTagLink. -/
def upsertKindOnly : SyncRecord → Bool
  | SyncRecord.deleted _ _ _ => false
  | SyncRecord.taskTag _ => false
  | _ => true

/-- The last `tags`-table row written for tag id `g` while folding the
batch, starting from a current value `o`. -/
def tagFoldl (changes : List SyncRecord) (g : Nat) (o : Option TagRow) :
    Option TagRow :=
  changes.foldl
    (fun acc r =>
      match r with
      | SyncRecord.tag tg =>
          if tg.id = g then some ⟨tg.name, tg.color, tg.created_at⟩ else acc
      | _ => acc) o

/-- A concrete stored task row used by witness instantiations. -/
def sampleTaskRow : TaskRow :=
  ⟨"a", none, none, Priority.medium, false, 0, 1, 10, none, none⟩

/-- A concrete store holding only task 1, for witness instantiations. -/
def sampleStoreTask : St := ⟨[], [], [(1, sampleTaskRow)], [], []⟩

/-- A concrete incoming task record with id 1, for witness instantiations. -/
def sampleTaskRec : TaskRec :=
  ⟨1, "b", none, none, Priority.medium, false, 0, [], 4, 5, none, none⟩

/-- The store after deleting task 1 from `sampleStoreTask`. -/
def c10s1 : St :=
  (apply_changes 0 [SyncRecord.deleted 1 RecordType.task 3] sampleStoreTask).1

/-- The result of re-applying a Task record with id 1 after the delete. -/
def c10p2 : St × List Nat :=
  apply_changes 0 [SyncRecord.task sampleTaskRec] c10s1

/-- A batch whose outcome depends on the input order of its kinds: a
Deletion for task 1 followed by a Task upsert of id 1. -/
def c2Batch : List SyncRecord :=
  [SyncRecord.deleted 1 RecordType.task 0, SyncRecord.task sampleTaskRec]

/-- A stored inbox list row with `updated_at = 5`. -/
def c3StoredRow : ListRow := ⟨"Inbox", none, "i", none, true, 0, 1, 5⟩

/-- A store holding only list 1 = `c3StoredRow`. -/
def c3Store : St := ⟨[(1, c3StoredRow)], [], [], [], []⟩

/-- An incoming List record for id 1 with `is_inbox = false` and a
strictly newer `updated_at = 10`. -/
def c3Incoming : ListRec := ⟨1, "renamed", none, "j", none, false, 2, 10, 3⟩

/-- A store holding task 1 (updated_at 10) and the link (1, 5). -/
def c8Store : St := ⟨[], [], [(1, sampleTaskRow)], [((1, 5), ⟨2⟩)], []⟩

/-- An incoming Task record for id 1 carrying the duplicated tag set
[2, 2, 3]. -/
def c8Accepted : TaskRec :=
  ⟨1, "w", none, none, Priority.medium, false, 0, [2, 2, 3], 0, 1, none, none⟩

/-- Task record id 1, created_at 1, updated_at 5. -/
def c6a : TaskRec :=
  ⟨1, "a", none, none, Priority.medium, false, 0, [], 1, 5, none, none⟩

/-- Task record id 1, created_at 2 (different from `c6a`), updated_at 7. -/
def c6b : TaskRec :=
  ⟨1, "b", none, none, Priority.medium, false, 0, [], 2, 7, none, none⟩

/-- Task record id 1, created_at 1, updated_at 7: same immutable fields
as `c6a`, newer timestamp. -/
def c6wb : TaskRec :=
  ⟨1, "b", none, none, Priority.medium, false, 0, [2], 1, 7, none, none⟩

/-- Task record id 1 carrying tag 2. -/
def c7Task : TaskRec :=
  ⟨1, "t", none, none, Priority.medium, false, 0, [2], 1, 10, none, none⟩

/-- A batch that is not idempotent: a TaskTag Deletion for task 1
followed by a Task record for id 1 carrying tag 2. -/
def c7Batch : List SyncRecord :=
  [SyncRecord.deleted 1 RecordType.taskTag 0, SyncRecord.task c7Task]

/-- The store after applying `c7Batch` once to the empty store. -/
def c7s1 : St := (apply_changes 0 c7Batch emptySt).1

/-- The store after applying `c7Batch` a second time. -/
def c7s2 : St := (apply_changes 0 c7Batch c7s1).1

/-- A batch of one List, one Tag and one Task upsert (no Deletions, no
TaskTagLinks), for the idempotence witness. -/
def c7wBatch : List SyncRecord :=
  [SyncRecord.list ⟨1, "L", none, "i", none, false, 1, 2, 0⟩,
    SyncRecord.tag ⟨7, "t", "c", 3⟩,
    SyncRecord.task ⟨5, "w", none, none, Priority.medium, false, 1, [7], 1, 5,
      none, none⟩]

section AssocLemmas

variable {α β : Type} [DecidableEq α]

theorem lookupA_eraseKey_self (l : List (α × β)) (k : α) :
    lookupA (eraseKey l k) k = none := by
  induction l with
  | nil => rfl
  | cons p rest ih =>
    obtain ⟨a, b⟩ := p
    by_cases h : a = k
    · simpa [eraseKey, h] using ih
    · simpa [eraseKey, lookupA, h] using ih

theorem lookupA_eraseKey_ne (l : List (α × β)) (k k' : α) (h : k' ≠ k) :
    lookupA (eraseKey l k) k' = lookupA l k' := by
  induction l with
  | nil => rfl
  | cons p rest ih =>
    obtain ⟨a, b⟩ := p
    have hk : ¬k = k' := fun e => h e.symm
    by_cases ha : a = k
    · simp [eraseKey, lookupA, ha, hk, ih]
    · by_cases ha' : a = k'
      · simp [eraseKey, lookupA, ha, ha', h]
      · simp [eraseKey, lookupA, ha, ha', ih]

theorem lookupA_setA_self (l : List (α × β)) (k : α) (v : β) :
    lookupA (setA l k v) k = some v := by
  simp [setA, lookupA]

theorem lookupA_setA_ne (l : List (α × β)) (k k' : α) (v : β) (h : k' ≠ k) :
    lookupA (setA l k v) k' = lookupA l k' := by
  have hk : k ≠ k' := fun e => h e.symm
  simp [setA, lookupA, hk, lookupA_eraseKey_ne l k k' h]

theorem lookupA_mem {l : List (α × β)} {k : α} {v : β}
    (h : lookupA l k = some v) : (k, v) ∈ l := by
  induction l with
  | nil => simp [lookupA] at h
  | cons p rest ih =>
    obtain ⟨a, b⟩ := p
    by_cases ha : a = k
    · simp [lookupA, ha] at h
      subst ha
      subst h
      exact List.mem_cons_self _ _
    · simp [lookupA, ha] at h
      exact List.mem_cons_of_mem _ (ih h)

theorem not_mem_eraseKey (l : List (α × β)) (k : α) (v : β) :
    (k, v) ∉ eraseKey l k := by
  induction l with
  | nil => simp [eraseKey]
  | cons p rest ih =>
    obtain ⟨a, b⟩ := p
    by_cases ha : a = k
    · simpa [eraseKey, ha] using ih
    · intro hmem
      rcases (by simpa [eraseKey, ha] using hmem :
          k = a ∧ v = b ∨ (k, v) ∈ eraseKey rest k) with ⟨h1, _⟩ | h2
      · exact ha h1.symm
      · exact ih h2

theorem mem_setA_same_key {l : List (α × β)} {k : α} {v w : β}
    (h : (k, w) ∈ setA l k v) : w = v := by
  rcases List.mem_cons.mp h with h1 | h2
  · exact (Prod.mk.injEq .. ▸ h1).2
  · exact absurd h2 (not_mem_eraseKey l k w)

theorem countKey_eq_zero_iff_lookupA_none (l : List (α × β)) (k : α) :
    countKey l k = 0 ↔ lookupA l k = none := by
  induction l with
  | nil => simp [countKey, lookupA]
  | cons p rest ih =>
    obtain ⟨a, b⟩ := p
    by_cases ha : a = k
    · simp [countKey, lookupA, ha, List.filter]
    · simpa [countKey, lookupA, ha, List.filter] using ih

theorem countKey_setA_self (l : List (α × β)) (k : α) (v : β) :
    countKey (setA l k v) k = 1 := by
  have h0 : countKey (eraseKey l k) k = 0 :=
    (countKey_eq_zero_iff_lookupA_none _ _).mpr (lookupA_eraseKey_self l k)
  simp [setA, countKey, List.filter] at h0 ⊢
  exact h0

theorem countKey_cons (a : α) (b : β) (l : List (α × β)) (k : α) :
    countKey ((a, b) :: l) k = (if a = k then 1 else 0) + countKey l k := by
  by_cases ha : a = k
  · simp [countKey, List.filter_cons, ha, Nat.add_comm]
  · simp [countKey, List.filter_cons, ha]

theorem countKey_eraseKey_ne (l : List (α × β)) (k k' : α) (h : k' ≠ k) :
    countKey (eraseKey l k) k' = countKey l k' := by
  induction l with
  | nil => rfl
  | cons p rest ih =>
    obtain ⟨a, b⟩ := p
    by_cases ha : a = k
    · have han : ¬a = k' := fun e => h (by rw [← e]; exact ha)
      rw [show eraseKey ((a, b) :: rest) k = eraseKey rest k by simp [eraseKey, ha]]
      rw [ih, countKey_cons, if_neg han, Nat.zero_add]
    · rw [show eraseKey ((a, b) :: rest) k = (a, b) :: eraseKey rest k by
        simp [eraseKey, ha]]
      rw [countKey_cons, countKey_cons, ih]

theorem countKey_setA_ne (l : List (α × β)) (k k' : α) (v : β) (h : k' ≠ k) :
    countKey (setA l k v) k' = countKey l k' := by
  have hk : ¬k = k' := fun e => h e.symm
  rw [setA, countKey_cons, if_neg hk, countKey_eraseKey_ne l k k' h]
  simp

end AssocLemmas

/-! ## Basic facts about the operations -/

theorem apply_changes_nil (now : Nat) (s : St) :
    apply_changes now [] s = (s, []) := rfl

theorem apply_changes_cons (now : Nat) (r : SyncRecord)
    (rest : List SyncRecord) (s : St) :
    apply_changes now (r :: rest) s =
      ((apply_changes now rest (applyRecord now s r).1).1,
        (applyRecord now s r).2.toList ++
          (apply_changes now rest (applyRecord now s r).1).2) := rfl

theorem apply_changes_singleton (now : Nat) (r : SyncRecord) (s : St) :
    apply_changes now [r] s =
      ((applyRecord now s r).1, (applyRecord now s r).2.toList) := by
  simp [apply_changes]

theorem apply_delete_tombstones (id : Nat) (rt : RecordType) (dt : Nat)
    (s : St) :
    (apply_delete id rt dt s).tombstones = setA s.tombstones id ⟨rt, dt⟩ := by
  cases rt <;> rfl

theorem mem_changes_deleted {s : St} {id dt : Nat} {rt : RecordType}
    (since : Option Nat) (h : lookupA s.tombstones id = some ⟨rt, dt⟩)
    (hf : sinceFilter since dt = true) :
    SyncRecord.deleted id rt dt ∈ get_changes_since s since := by
  have hm : (id, (⟨rt, dt⟩ : TombRow)) ∈ s.tombstones := lookupA_mem h
  unfold get_changes_since
  refine List.mem_append.mpr (Or.inr ?_)
  exact List.mem_map.mpr ⟨(id, ⟨rt, dt⟩), List.mem_filter.mpr ⟨hm, hf⟩, rfl⟩

theorem mem_changes_task {s : St} {id : Nat} {row : TaskRow}
    (h : lookupA s.tasks id = some row) :
    SyncRecord.task (taskRecOf s.taskTags id row) ∈ get_changes_since s none := by
  have hm := lookupA_mem h
  unfold get_changes_since
  refine List.mem_append.mpr (Or.inl (List.mem_append.mpr (Or.inr ?_)))
  exact List.mem_map.mpr ⟨(id, row), List.mem_filter.mpr ⟨hm, rfl⟩, rfl⟩

theorem upsert_task_conflict {now : Nat} {t : TaskRec} {s : St} {i : Nat}
    (h : (upsert_task now t s).2 = some i) : i = t.id := by
  unfold upsert_task at h
  cases hl : lookupA s.tasks t.id with
  | none => rw [hl] at h; simp at h
  | some row =>
    rw [hl] at h
    by_cases hle : t.updated_at ≤ row.updated_at
    · have h' : t.id = i := by simpa [hle] using h
      exact h'.symm
    · simp [hle] at h

theorem upsert_list_conflict {l : ListRec} {s : St} {i : Nat}
    (h : (upsert_list l s).2 = some i) : i = l.id := by
  unfold upsert_list at h
  cases hl : lookupA s.lists l.id with
  | none => rw [hl] at h; simp at h
  | some row =>
    rw [hl] at h
    by_cases hle : l.updated_at ≤ row.updated_at
    · have h' : l.id = i := by simpa [hle] using h
      exact h'.symm
    · simp [hle] at h

/-! ## Claim theorems -/

/-- C1: for a List or Task change record processed by `apply_changes`,
if no stored row with that id exists the record is inserted and no
conflict is reported; if a row exists and the incoming `updated_at` is ≤
the stored one, the store is returned untouched and the id is the sole
entry of the conflict list; if the incoming `updated_at` is strictly
greater, the stored row is overwritten and no conflict is reported. -/
theorem c1_list_task_upsert_lww (now : Nat) (s : St) (t : TaskRec)
    (l : ListRec) :
    (lookupA s.tasks t.id = none →
      (apply_changes now [SyncRecord.task t] s).2 = [] ∧
      lookupA (apply_changes now [SyncRecord.task t] s).1.tasks t.id =
        some (taskInsertRow t)) ∧
    (∀ row, lookupA s.tasks t.id = some row →
      t.updated_at ≤ row.updated_at →
      apply_changes now [SyncRecord.task t] s = (s, [t.id])) ∧
    (∀ row, lookupA s.tasks t.id = some row →
      row.updated_at < t.updated_at →
      (apply_changes now [SyncRecord.task t] s).2 = [] ∧
      lookupA (apply_changes now [SyncRecord.task t] s).1.tasks t.id =
        some (taskUpdateRow row t)) ∧
    (lookupA s.lists l.id = none →
      (apply_changes now [SyncRecord.list l] s).2 = [] ∧
      lookupA (apply_changes now [SyncRecord.list l] s).1.lists l.id =
        some (listInsertRow l)) ∧
    (∀ row, lookupA s.lists l.id = some row →
      l.updated_at ≤ row.updated_at →
      apply_changes now [SyncRecord.list l] s = (s, [l.id])) ∧
    (∀ row, lookupA s.lists l.id = some row →
      row.updated_at < l.updated_at →
      (apply_changes now [SyncRecord.list l] s).2 = [] ∧
      lookupA (apply_changes now [SyncRecord.list l] s).1.lists l.id =
        some (listUpdateRow row l)) := by
  refine ⟨?_, ?_, ?_, ?_, ?_, ?_⟩
  · intro h
    simp [apply_changes, applyRecord, upsert_task, h, lookupA_setA_self]
  · intro row h hle
    simp [apply_changes, applyRecord, upsert_task, h, hle]
  · intro row h hlt
    simp [apply_changes, applyRecord, upsert_task, h, Nat.not_le.mpr hlt,
      lookupA_setA_self]
  · intro h
    simp [apply_changes, applyRecord, upsert_list, h, lookupA_setA_self]
  · intro row h hle
    simp [apply_changes, applyRecord, upsert_list, h, hle]
  · intro row h hlt
    simp [apply_changes, applyRecord, upsert_list, h, Nat.not_le.mpr hlt,
      lookupA_setA_self]

/-- Witness for C1, replaying the spec's own scenario: an insert into
the empty store followed by a rejected older update. -/
theorem c1_list_task_upsert_lww_witness :
    apply_changes 0
        [SyncRecord.task ⟨1, "X", none, none, Priority.medium, false, 0,
          [], 1, 5, none, none⟩]
        ⟨[], [], [(1, ⟨"T1", none, none, Priority.medium, false, 0, 1, 10,
          none, none⟩)], [], []⟩ =
      (⟨[], [], [(1, ⟨"T1", none, none, Priority.medium, false, 0, 1, 10,
        none, none⟩)], [], []⟩, [1]) :=
  (c1_list_task_upsert_lww 0
      ⟨[], [], [(1, ⟨"T1", none, none, Priority.medium, false, 0, 1, 10,
        none, none⟩)], [], []⟩
      ⟨1, "X", none, none, Priority.medium, false, 0, [], 1, 5, none, none⟩
      ⟨1, "L", none, "i", none, false, 0, 0, 0⟩).2.1
    ⟨"T1", none, none, Priority.medium, false, 0, 1, 10, none, none⟩
    (by decide) (by decide)

/-- C4: deleting a List whose stored row has `is_inbox = true` leaves
the row retrievable unchanged, still writes the tombstone, and
`get_changes_since` still returns a Deleted record for it. -/
theorem c4_inbox_list_protected (now : Nat) (s : St) (id dt : Nat)
    (row : ListRow) (hrow : lookupA s.lists id = some row)
    (hinbox : row.is_inbox = true) :
    lookupA (apply_changes now [SyncRecord.deleted id RecordType.list dt] s).1.lists id =
      some row ∧
    lookupA (apply_changes now [SyncRecord.deleted id RecordType.list dt] s).1.tombstones id =
      some ⟨RecordType.list, dt⟩ ∧
    SyncRecord.deleted id RecordType.list dt ∈
      get_changes_since
        (apply_changes now [SyncRecord.deleted id RecordType.list dt] s).1 none := by
  have hs : (apply_changes now [SyncRecord.deleted id RecordType.list dt] s).1 =
      apply_delete id RecordType.list dt s := by
    simp [apply_changes, applyRecord]
  rw [hs]
  have hgen : ∀ ls : List (Nat × ListRow), lookupA ls id = some row →
      lookupA (ls.filter
        (fun p => decide (¬(p.1 = id ∧ p.2.is_inbox = false)))) id = some row := by
    intro ls
    induction ls with
    | nil => intro h0; simp [lookupA] at h0
    | cons p rest ih =>
      intro h0
      obtain ⟨a, b⟩ := p
      by_cases ha : a = id
      · have hb : b = row := by simpa [lookupA, ha] using h0
        subst hb
        subst ha
        simp [List.filter_cons, hinbox, lookupA]
      · have h0' : lookupA rest id = some row := by simpa [lookupA, ha] using h0
        simpa [List.filter_cons, lookupA, ha] using ih h0'
  have hlists : lookupA (apply_delete id RecordType.list dt s).lists id = some row := by
    show lookupA (s.lists.filter
      (fun p => decide (¬(p.1 = id ∧ p.2.is_inbox = false)))) id = some row
    exact hgen s.lists hrow
  have htomb : lookupA (apply_delete id RecordType.list dt s).tombstones id =
      some ⟨RecordType.list, dt⟩ := by
    rw [apply_delete_tombstones]
    exact lookupA_setA_self ..
  exact ⟨hlists, htomb, mem_changes_deleted none htomb rfl⟩

/-- Witness for C4: the spec's inbox scenario on a concrete store. -/
theorem c4_inbox_list_protected_witness :
    lookupA (apply_changes 0 [SyncRecord.deleted 1 RecordType.list 2]
        ⟨[(1, ⟨"Inbox", none, "i", none, true, 0, 1, 1⟩)], [], [], [], []⟩).1.lists 1 =
      some ⟨"Inbox", none, "i", none, true, 0, 1, 1⟩ ∧
    lookupA (apply_changes 0 [SyncRecord.deleted 1 RecordType.list 2]
        ⟨[(1, ⟨"Inbox", none, "i", none, true, 0, 1, 1⟩)], [], [], [], []⟩).1.tombstones 1 =
      some ⟨RecordType.list, 2⟩ ∧
    SyncRecord.deleted 1 RecordType.list 2 ∈
      get_changes_since (apply_changes 0 [SyncRecord.deleted 1 RecordType.list 2]
        ⟨[(1, ⟨"Inbox", none, "i", none, true, 0, 1, 1⟩)], [], [], [], []⟩).1 none :=
  c4_inbox_list_protected 0
    ⟨[(1, ⟨"Inbox", none, "i", none, true, 0, 1, 1⟩)], [], [], [], []⟩ 1 2
    ⟨"Inbox", none, "i", none, true, 0, 1, 1⟩ (by decide) (by decide)

/-- C5: after a Deletion record for entity `id` with `deleted_at = dt`
is applied, `get_changes_since (some w)` contains the Deleted record for
it exactly when `w < dt` — tombstone selection is the strict comparison
`deleted_at > watermark`, so any watermark below `dt` sees the record
and any watermark at or above `dt` does not. -/
theorem c5_tombstone_propagation_strict (now : Nat) (s : St)
    (id dt w : Nat) (rt : RecordType) :
    (SyncRecord.deleted id rt dt ∈
        get_changes_since
          (apply_changes now [SyncRecord.deleted id rt dt] s).1 (some w)) ↔
      w < dt := by
  have hs : (apply_changes now [SyncRecord.deleted id rt dt] s).1 =
      apply_delete id rt dt s := by
    simp [apply_changes, applyRecord]
  rw [hs]
  constructor
  · intro hmem
    unfold get_changes_since at hmem
    rcases List.mem_append.mp hmem with h3 | h4
    · exfalso
      rcases List.mem_append.mp h3 with h2 | htasks
      · rcases List.mem_append.mp h2 with hlists | htags
        · rcases List.mem_map.mp hlists with ⟨p, _, hp⟩
          exact SyncRecord.noConfusion hp
        · rcases List.mem_map.mp htags with ⟨p, _, hp⟩
          exact SyncRecord.noConfusion hp
      · rcases List.mem_map.mp htasks with ⟨p, _, hp⟩
        exact SyncRecord.noConfusion hp
    · rcases List.mem_map.mp h4 with ⟨⟨pid, pv⟩, hpf, hp⟩
      obtain ⟨hpmem, hpfilter⟩ := List.mem_filter.mp hpf
      injection hp with h1 h2 h3
      subst h1
      rw [apply_delete_tombstones] at hpmem
      have hpv : pv = ⟨rt, dt⟩ := mem_setA_same_key hpmem
      subst hpv
      simpa [sinceFilter] using hpfilter
  · intro hw
    refine mem_changes_deleted (some w) ?_ ?_
    · rw [apply_delete_tombstones]
      exact lookupA_setA_self ..
    · simpa [sinceFilter] using hw

/-- C9: a Tag upsert unconditionally replaces the stored tag by id with
no timestamp comparison; a TaskTagLink upsert inserts only when the
`(task_id, tag_id)` key is absent and otherwise leaves the store
untouched; and every id in the conflict list returned by
`apply_changes` originates from a List or Task record of the batch, so
Tag and TaskTagLink records are never reported as conflicts. -/
theorem c9_tag_link_never_conflict :
    (∀ (s : St) (g : TagRec),
      lookupA (upsert_tag g s).tags g.id = some ⟨g.name, g.color, g.created_at⟩) ∧
    (∀ (s : St) (lk : LinkRec),
      (∀ v, lookupA s.taskTags (lk.task_id, lk.tag_id) = some v →
        upsert_task_tag lk s = s) ∧
      (lookupA s.taskTags (lk.task_id, lk.tag_id) = none →
        lookupA (upsert_task_tag lk s).taskTags (lk.task_id, lk.tag_id) =
          some ⟨lk.created_at⟩)) ∧
    (∀ (now : Nat) (changes : List SyncRecord) (s : St) (i : Nat),
      i ∈ (apply_changes now changes s).2 →
      ∃ r ∈ changes, (∃ t : TaskRec, r = SyncRecord.task t ∧ t.id = i) ∨
        (∃ l : ListRec, r = SyncRecord.list l ∧ l.id = i)) := by
  refine ⟨?_, ?_, ?_⟩
  · intro s g
    exact lookupA_setA_self ..
  · intro s lk
    constructor
    · intro v hv
      simp [upsert_task_tag, insertLinkIgnore, hv]
    · intro hnone
      simp [upsert_task_tag, insertLinkIgnore, hnone, lookupA_setA_self]
  · intro now changes
    induction changes with
    | nil => intro s i h; simp [apply_changes] at h
    | cons r rest ih =>
      intro s i h
      rw [apply_changes_cons] at h
      rcases List.mem_append.mp h with hl | hr
      · refine ⟨r, List.mem_cons_self .., ?_⟩
        cases r with
        | task t =>
          have : (upsert_task now t s).2 = some i := by
            cases hu : (upsert_task now t s).2 with
            | none => simp [applyRecord, hu] at hl
            | some j =>
              simp only [applyRecord, hu, Option.toList] at hl
              exact congrArg some (List.mem_singleton.mp hl).symm
          exact Or.inl ⟨t, rfl, (upsert_task_conflict this).symm⟩
        | list l =>
          have : (upsert_list l s).2 = some i := by
            cases hu : (upsert_list l s).2 with
            | none => simp [applyRecord, hu] at hl
            | some j =>
              simp only [applyRecord, hu, Option.toList] at hl
              exact congrArg some (List.mem_singleton.mp hl).symm
          exact Or.inr ⟨l, rfl, (upsert_list_conflict this).symm⟩
        | tag g => simp [applyRecord] at hl
        | taskTag lk => simp [applyRecord] at hl
        | deleted id rt dt => simp [applyRecord] at hl
      · obtain ⟨r', hr'mem, hr'⟩ := ih (applyRecord now s r).1 i hr
        exact ⟨r', List.mem_cons_of_mem _ hr'mem, hr'⟩

/-- Witness for C9: a batch holding one record of every kind over a
store where the tag and the link already exist reports no conflicts at
all, and the inner clauses hold at those concrete inputs. -/
theorem c9_tag_link_never_conflict_witness :
    lookupA (upsert_tag ⟨7, "t", "c", 3⟩
        ⟨[], [(7, ⟨"old", "o", 1⟩)], [], [], []⟩).tags 7 = some ⟨"t", "c", 3⟩ ∧
    upsert_task_tag ⟨1, 2, 9⟩
        ⟨[], [], [], [((1, 2), ⟨4⟩)], []⟩ =
      ⟨[], [], [], [((1, 2), ⟨4⟩)], []⟩ ∧
    (3 ∈ (apply_changes 0 [SyncRecord.tag ⟨7, "t", "c", 3⟩]
        ⟨[], [(7, ⟨"old", "o", 1⟩)], [], [], []⟩).2 →
      ∃ r ∈ [SyncRecord.tag (⟨7, "t", "c", 3⟩ : TagRec)],
        (∃ t : TaskRec, r = SyncRecord.task t ∧ t.id = 3) ∨
        (∃ l : ListRec, r = SyncRecord.list l ∧ l.id = 3)) :=
  ⟨c9_tag_link_never_conflict.1 ⟨[], [(7, ⟨"old", "o", 1⟩)], [], [], []⟩
      ⟨7, "t", "c", 3⟩,
    (c9_tag_link_never_conflict.2.1 ⟨[], [], [], [((1, 2), ⟨4⟩)], []⟩
      ⟨1, 2, 9⟩).1 ⟨4⟩ (by decide),
    c9_tag_link_never_conflict.2.2 0 [SyncRecord.tag ⟨7, "t", "c", 3⟩]
      ⟨[], [(7, ⟨"old", "o", 1⟩)], [], [], []⟩ 3⟩

/-- C10: a Deletion record for a Task id removes the row and writes the
tombstone unconditionally (no timestamp comparison against the stored
row); a subsequent batch carrying a Task record with the same id is
inserted afresh with no conflict, the tombstone survives, and
`get_changes_since (none)` then returns both a live Task with that id
and the Deleted record for it. -/
theorem c10_tombstone_then_recreate (now1 now2 : Nat) (s s1 : St)
    (t : TaskRec) (dt : Nat) (p2 : St × List Nat)
    (h1 : s1 = (apply_changes now1 [SyncRecord.deleted t.id RecordType.task dt] s).1)
    (h2 : p2 = apply_changes now2 [SyncRecord.task t] s1) :
    lookupA s1.tasks t.id = none ∧
    lookupA s1.tombstones t.id = some ⟨RecordType.task, dt⟩ ∧
    p2.2 = [] ∧
    lookupA p2.1.tasks t.id = some (taskInsertRow t) ∧
    lookupA p2.1.tombstones t.id = some ⟨RecordType.task, dt⟩ ∧
    (∃ t' : TaskRec, SyncRecord.task t' ∈ get_changes_since p2.1 none ∧
      t'.id = t.id) ∧
    SyncRecord.deleted t.id RecordType.task dt ∈ get_changes_since p2.1 none := by
  have hs1 : s1 = apply_delete t.id RecordType.task dt s := by
    rw [h1]; simp [apply_changes, applyRecord]
  have htask1 : lookupA s1.tasks t.id = none := by
    rw [hs1]
    exact lookupA_eraseKey_self ..
  have htomb1 : lookupA s1.tombstones t.id = some ⟨RecordType.task, dt⟩ := by
    rw [hs1, apply_delete_tombstones]
    exact lookupA_setA_self ..
  have hp2 : p2 = ((upsert_task now2 t s1).1, []) := by
    rw [h2]
    simp [apply_changes, applyRecord, upsert_task, htask1]
  have hins : (upsert_task now2 t s1).1 =
      { s1 with
        tasks := setA s1.tasks t.id (taskInsertRow t)
        taskTags := updateTaskTags now2 t s1.taskTags } := by
    simp [upsert_task, htask1]
  have htask2 : lookupA p2.1.tasks t.id = some (taskInsertRow t) := by
    rw [hp2, hins]
    exact lookupA_setA_self ..
  have htomb2 : lookupA p2.1.tombstones t.id = some ⟨RecordType.task, dt⟩ := by
    rw [hp2, hins]
    exact htomb1
  refine ⟨htask1, htomb1, by rw [hp2], htask2, htomb2, ?_, ?_⟩
  · exact ⟨taskRecOf p2.1.taskTags t.id (taskInsertRow t),
      mem_changes_task htask2, rfl⟩
  · exact mem_changes_deleted none htomb2 rfl

/-- Witness for C10: delete task 1 from a store holding it, then apply
a fresh Task record with id 1. -/
theorem c10_tombstone_then_recreate_witness :
    lookupA c10s1.tasks 1 = none ∧
    lookupA c10s1.tombstones 1 = some ⟨RecordType.task, 3⟩ ∧
    c10p2.2 = [] ∧
    lookupA c10p2.1.tasks 1 = some (taskInsertRow sampleTaskRec) ∧
    lookupA c10p2.1.tombstones 1 = some ⟨RecordType.task, 3⟩ ∧
    (∃ t' : TaskRec, SyncRecord.task t' ∈ get_changes_since c10p2.1 none ∧
      t'.id = 1) ∧
    SyncRecord.deleted 1 RecordType.task 3 ∈ get_changes_since c10p2.1 none :=
  c10_tombstone_then_recreate 0 0 sampleStoreTask c10s1 sampleTaskRec 3 c10p2
    rfl rfl

/-- C2 counterexample: on the batch `c2Batch` (a Deletion for task 1
followed by a Task record with id 1) the code and the fixed kind order
List, Tag, TaskTagLink, Task, Deletion-last disagree: processing in
input order deletes first and then re-inserts task 1, while the claimed
partitioned order would apply the Deletion last and leave no task 1. -/
theorem c2_fixed_kind_order_counterexample :
    lookupA (apply_changes 0 c2Batch emptySt).1.tasks 1 ≠
      lookupA (apply_changes_spec_order 0 c2Batch emptySt).1.tasks 1 := by
  decide

/-- C2 (amended): `apply_changes` does not partition the batch by kind;
it processes the records one at a time in the order they appear in the
input, dispatching on each record's kind as it is reached: applying a
concatenated batch equals applying the first part and then the second
part on the resulting state, with the conflict lists concatenated, and a
single-record batch is exactly one kind-dispatched application. -/
theorem c2_apply_changes_input_order (now : Nat) :
    (∀ (b1 b2 : List SyncRecord) (s : St),
      apply_changes now (b1 ++ b2) s =
        ((apply_changes now b2 (apply_changes now b1 s).1).1,
          (apply_changes now b1 s).2 ++
            (apply_changes now b2 (apply_changes now b1 s).1).2)) ∧
    (∀ (r : SyncRecord) (s : St),
      apply_changes now [r] s =
        ((applyRecord now s r).1, (applyRecord now s r).2.toList)) := by
  constructor
  · intro b1
    induction b1 with
    | nil => intro b2 s; simp [apply_changes]
    | cons r rest ih =>
      intro b2 s
      rw [List.cons_append, apply_changes_cons, apply_changes_cons, ih]
      simp [apply_changes_cons, List.append_assoc]
  · exact apply_changes_singleton now

/-- C3 counterexample: an incoming List record with a strictly newer
`updated_at` wins the upsert (no conflict), yet the stored `is_inbox`
flag keeps its old value `true` instead of the incoming `false`: the
`UPDATE lists SET` statement does not overwrite `is_inbox`. -/
theorem c3_is_inbox_not_overwritten_counterexample :
    (upsert_list c3Incoming c3Store).2 = none ∧
    c3Incoming.is_inbox = false ∧
    (lookupA (upsert_list c3Incoming c3Store).1.lists 1).map
      (fun r => r.is_inbox) = some true := by
  decide

/-- C3 (amended): when a List or Task upsert wins (incoming
`updated_at` strictly greater than stored), every mutable field is
overwritten together with the `updated_at` stamp — for a List: name,
description, icon, color, and sort_order, while `is_inbox` and
`created_at` keep the stored values; for a Task: title, description,
url, priority, completed, list_id, completed_at and due_date, while
`created_at` keeps the stored value. -/
theorem c3_overwrite_mutable_fields (now : Nat) (s : St) (t : TaskRec)
    (l : ListRec) :
    (∀ row, lookupA s.lists l.id = some row →
      row.updated_at < l.updated_at →
      lookupA (upsert_list l s).1.lists l.id =
        some ⟨l.name, l.description, l.icon, l.color, row.is_inbox,
          l.sort_order, row.created_at, l.updated_at⟩) ∧
    (∀ row, lookupA s.tasks t.id = some row →
      row.updated_at < t.updated_at →
      lookupA (upsert_task now t s).1.tasks t.id =
        some ⟨t.title, t.description, t.url, t.priority, t.completed,
          t.list_id, row.created_at, t.updated_at, t.completed_at,
          t.due_date⟩) := by
  constructor
  · intro row h hlt
    simp [upsert_list, h, Nat.not_le.mpr hlt, lookupA_setA_self, listUpdateRow]
  · intro row h hlt
    simp [upsert_task, h, Nat.not_le.mpr hlt, lookupA_setA_self, taskUpdateRow]

/-- Witness for C3 (amended): the winning upsert of `c3Incoming` over
`c3Store` rewrites the mutable columns but keeps `is_inbox = true` and
`created_at = 1`. -/
theorem c3_overwrite_mutable_fields_witness :
    lookupA (upsert_list c3Incoming c3Store).1.lists 1 =
      some ⟨"renamed", none, "j", none, true, 3, 1, 10⟩ :=
  (c3_overwrite_mutable_fields 0 c3Store sampleTaskRec c3Incoming).1
    c3StoredRow (by decide) (by decide)

/-- All rows keyed by the given task id are gone after the wholesale
link delete. -/
theorem countKey_eraseTaskLinks_zero (l : List ((Nat × Nat) × LinkRow))
    (tid g : Nat) : countKey (eraseTaskLinks l tid) (tid, g) = 0 := by
  induction l with
  | nil => rfl
  | cons p rest ih =>
    obtain ⟨⟨a1, a2⟩, b⟩ := p
    by_cases ha : a1 = tid
    · simpa [eraseTaskLinks, List.filter_cons, ha] using ih
    · have hne : ¬((a1, a2) = (tid, g)) := by
        intro he
        exact ha (congrArg Prod.fst he)
      rw [show eraseTaskLinks (((a1, a2), b) :: rest) tid =
          ((a1, a2), b) :: eraseTaskLinks rest tid by
        simp [eraseTaskLinks, List.filter_cons, ha]]
      rw [countKey_cons, if_neg hne, ih]

/-- Effect of the fold of `INSERT OR IGNORE` link inserts on the row
count of key `(tid, g)`: afterwards there is exactly one row when `g`
is among the inserted tag ids, and otherwise the count is untouched. -/
theorem linkFold_count (now tid g : Nat) :
    ∀ (gs : List Nat) (acc : List ((Nat × Nat) × LinkRow)),
      countKey acc (tid, g) ≤ 1 →
      countKey (gs.foldl (fun a gg => insertLinkIgnore a tid gg now) acc)
          (tid, g) =
        if g ∈ gs then 1 else countKey acc (tid, g) := by
  intro gs
  induction gs with
  | nil => intro acc _; simp
  | cons gg rest ih =>
    intro acc hle
    rw [List.foldl_cons]
    by_cases hgg : gg = g
    · subst hgg
      have h1 : countKey (insertLinkIgnore acc tid gg now) (tid, gg) = 1 := by
        cases hlk : lookupA acc (tid, gg) with
        | some v =>
          have hs : insertLinkIgnore acc tid gg now = acc := by
            unfold insertLinkIgnore
            rw [hlk]
          have hnz : countKey acc (tid, gg) ≠ 0 := by
            intro h0
            rw [(countKey_eq_zero_iff_lookupA_none acc (tid, gg)).mp h0] at hlk
            exact Option.noConfusion hlk
          rw [hs]
          omega
        | none =>
          have hs : insertLinkIgnore acc tid gg now = setA acc (tid, gg) ⟨now⟩ := by
            unfold insertLinkIgnore
            rw [hlk]
          rw [hs]
          exact countKey_setA_self ..
      rw [ih _ (le_of_eq h1), h1]
      simp
    · have hsame : countKey (insertLinkIgnore acc tid gg now) (tid, g) =
          countKey acc (tid, g) := by
        cases hlk : lookupA acc (tid, gg) with
        | some v =>
          have hs : insertLinkIgnore acc tid gg now = acc := by
            unfold insertLinkIgnore
            rw [hlk]
          rw [hs]
        | none =>
          have hs : insertLinkIgnore acc tid gg now = setA acc (tid, gg) ⟨now⟩ := by
            unfold insertLinkIgnore
            rw [hlk]
          rw [hs]
          exact countKey_setA_ne acc (tid, gg) (tid, g) ⟨now⟩
            (fun he => hgg (congrArg Prod.snd he).symm)
      rw [ih _ (hsame ▸ hle), hsame]
      have hiff : (g ∈ gg :: rest) ↔ (g ∈ rest) := by
        constructor
        · intro hc
          rcases List.mem_cons.mp hc with he | hm
          · exact absurd he.symm hgg
          · exact hm
        · exact fun hm => List.mem_cons_of_mem _ hm
      by_cases hm : g ∈ rest
      · rw [if_pos hm, if_pos (hiff.mpr hm)]
      · rw [if_neg hm, if_neg (fun hc => hm (hiff.mp hc))]

/-- After the tag-membership replacement of `upsert_task`, the links of
the task are exactly one row per incoming tag id. -/
theorem updateTaskTags_count (now : Nat) (t : TaskRec)
    (l : List ((Nat × Nat) × LinkRow)) (g : Nat) :
    countKey (updateTaskTags now t l) (t.id, g) =
      if g ∈ t.tag_ids then 1 else 0 := by
  unfold updateTaskTags
  rw [linkFold_count now t.id g t.tag_ids (eraseTaskLinks l t.id)
    (by rw [countKey_eraseTaskLinks_zero]; exact Nat.zero_le 1),
    countKey_eraseTaskLinks_zero]

/-- C8 counterexample: a Task record that is rejected by the timestamp
comparison leaves the stored links untouched, so after `apply_changes`
processes it the links are not one-per-incoming-tag: the incoming tag
set is empty yet the prior link `(1, 5)` is still stored. -/
theorem c8_rejected_task_keeps_links_counterexample :
    (upsert_task 0 sampleTaskRec c8Store).2 = some 1 ∧
    sampleTaskRec.tag_ids = [] ∧
    countKey (upsert_task 0 sampleTaskRec c8Store).1.taskTags (1, 5) = 1 := by
  decide

/-- C8 (amended): whenever a Task record is not rejected (no stored row,
or incoming `updated_at` strictly greater), the stored TaskTagLink rows
for that task id afterwards are exactly one per tag id carried on the
incoming record — prior links are deleted wholesale first and duplicate
incoming tag ids are ignored — so an empty incoming tag set removes
every prior link of the task. A rejected record leaves links unchanged. -/
theorem c8_tag_set_replace (now : Nat) (s : St) (t : TaskRec)
    (hacc : lookupA s.tasks t.id = none ∨
      ∃ row, lookupA s.tasks t.id = some row ∧
        row.updated_at < t.updated_at) :
    ∀ g, countKey (upsert_task now t s).1.taskTags (t.id, g) =
      if g ∈ t.tag_ids then 1 else 0 := by
  have hlinks : (upsert_task now t s).1.taskTags =
      updateTaskTags now t s.taskTags := by
    rcases hacc with h | ⟨row, h, hlt⟩
    · simp [upsert_task, h]
    · simp [upsert_task, h, Nat.not_le.mpr hlt]
  intro g
  rw [hlinks, updateTaskTags_count]

/-- Witness for C8 (amended): inserting `c8Accepted` (tag set
[2, 2, 3]) into the empty store yields exactly one link for tag 2 and
none for tag 9. -/
theorem c8_tag_set_replace_witness :
    countKey (upsert_task 0 c8Accepted emptySt).1.taskTags (1, 2) = 1 ∧
    countKey (upsert_task 0 c8Accepted emptySt).1.taskTags (1, 9) = 0 :=
  ⟨(c8_tag_set_replace 0 emptySt c8Accepted (Or.inl rfl) 2).trans (by decide),
    (c8_tag_set_replace 0 emptySt c8Accepted (Or.inl rfl) 9).trans (by decide)⟩

/-! ## State-equivalence toolkit -/

theorem equivSt_refl (s : St) : EquivSt s s :=
  ⟨fun _ => rfl, fun _ => rfl, fun _ => rfl, fun _ => rfl, fun _ => rfl⟩

theorem equivSt_of_eq {s1 s2 : St} (h : s1 = s2) : EquivSt s1 s2 :=
  h ▸ equivSt_refl s1

theorem equivSt_symm {s1 s2 : St} (h : EquivSt s1 s2) : EquivSt s2 s1 :=
  ⟨fun k => (h.1 k).symm, fun k => (h.2.1 k).symm, fun k => (h.2.2.1 k).symm,
    fun k => (h.2.2.2.1 k).symm, fun k => (h.2.2.2.2 k).symm⟩

theorem equivSt_trans {s1 s2 s3 : St} (h1 : EquivSt s1 s2)
    (h2 : EquivSt s2 s3) : EquivSt s1 s3 :=
  ⟨fun k => (h1.1 k).trans (h2.1 k), fun k => (h1.2.1 k).trans (h2.2.1 k),
    fun k => (h1.2.2.1 k).trans (h2.2.2.1 k),
    fun k => (h1.2.2.2.1 k).trans (h2.2.2.2.1 k),
    fun k => (h1.2.2.2.2 k).trans (h2.2.2.2.2 k)⟩

theorem sameTable_setA_setA {α β : Type} [DecidableEq α]
    (l : List (α × β)) (k : α) (v w : β) :
    sameTable (setA (setA l k v) k w) (setA l k w) := by
  intro k'
  by_cases h : k' = k
  · subst h
    rw [lookupA_setA_self, lookupA_setA_self]
  · rw [lookupA_setA_ne _ _ _ _ h, lookupA_setA_ne _ _ _ _ h,
      lookupA_setA_ne _ _ _ _ h]

/-! ## Link-table algebra for repeated task upserts -/

theorem eraseTaskLinks_cons (p : (Nat × Nat) × LinkRow)
    (rest : List ((Nat × Nat) × LinkRow)) (tid : Nat) :
    eraseTaskLinks (p :: rest) tid =
      if p.1.1 = tid then eraseTaskLinks rest tid
      else p :: eraseTaskLinks rest tid := by
  by_cases h : p.1.1 = tid <;> simp [eraseTaskLinks, List.filter_cons, h]

theorem eraseTaskLinks_idem (l : List ((Nat × Nat) × LinkRow)) (tid : Nat) :
    eraseTaskLinks (eraseTaskLinks l tid) tid = eraseTaskLinks l tid := by
  induction l with
  | nil => rfl
  | cons p rest ih =>
    rw [eraseTaskLinks_cons]
    by_cases h : p.1.1 = tid
    · rw [if_pos h, ih]
    · rw [if_neg h, eraseTaskLinks_cons, if_neg h, ih]

theorem eraseTaskLinks_eraseKey (l : List ((Nat × Nat) × LinkRow))
    (tid g : Nat) :
    eraseTaskLinks (eraseKey l (tid, g)) tid = eraseTaskLinks l tid := by
  induction l with
  | nil => rfl
  | cons p rest ih =>
    obtain ⟨⟨a1, a2⟩, b⟩ := p
    rw [show eraseKey (((a1, a2), b) :: rest) ((tid, g) : Nat × Nat) =
        if (a1, a2) = ((tid, g) : Nat × Nat) then eraseKey rest (tid, g)
        else ((a1, a2), b) :: eraseKey rest (tid, g) from rfl]
    by_cases hk : (a1, a2) = ((tid, g) : Nat × Nat)
    · have ha1 : a1 = tid := congrArg Prod.fst hk
      rw [if_pos hk, ih, eraseTaskLinks_cons, if_pos ha1]
    · rw [if_neg hk, eraseTaskLinks_cons, eraseTaskLinks_cons]
      by_cases ha1 : a1 = tid
      · rw [if_pos ha1, if_pos ha1, ih]
      · rw [if_neg ha1, if_neg ha1, ih]

theorem eraseTaskLinks_insertLinkIgnore (l : List ((Nat × Nat) × LinkRow))
    (tid g now : Nat) :
    eraseTaskLinks (insertLinkIgnore l tid g now) tid = eraseTaskLinks l tid := by
  cases hlk : lookupA l (tid, g) with
  | some v =>
    have hs : insertLinkIgnore l tid g now = l := by
      unfold insertLinkIgnore
      rw [hlk]
    rw [hs]
  | none =>
    have hs : insertLinkIgnore l tid g now = setA l (tid, g) ⟨now⟩ := by
      unfold insertLinkIgnore
      rw [hlk]
    rw [hs, setA, eraseTaskLinks_cons, if_pos rfl, eraseTaskLinks_eraseKey]

theorem foldl_insertLinkIgnore_erase (now tid : Nat) :
    ∀ (gs : List Nat) (acc : List ((Nat × Nat) × LinkRow)),
      eraseTaskLinks
          (gs.foldl (fun a gg => insertLinkIgnore a tid gg now) acc) tid =
        eraseTaskLinks acc tid := by
  intro gs
  induction gs with
  | nil => intro acc; rfl
  | cons gg rest ih =>
    intro acc
    rw [List.foldl_cons, ih, eraseTaskLinks_insertLinkIgnore]

theorem eraseTaskLinks_updateTaskTags (now : Nat) (t : TaskRec)
    (l : List ((Nat × Nat) × LinkRow)) :
    eraseTaskLinks (updateTaskTags now t l) t.id = eraseTaskLinks l t.id := by
  unfold updateTaskTags
  rw [foldl_insertLinkIgnore_erase, eraseTaskLinks_idem]

theorem updateTaskTags_updateTaskTags (now1 now2 : Nat) (a b : TaskRec)
    (hid : a.id = b.id) (l : List ((Nat × Nat) × LinkRow)) :
    updateTaskTags now2 b (updateTaskTags now1 a l) =
      updateTaskTags now2 b l := by
  show b.tag_ids.foldl (fun acc g => insertLinkIgnore acc b.id g now2)
      (eraseTaskLinks (updateTaskTags now1 a l) b.id) =
    b.tag_ids.foldl (fun acc g => insertLinkIgnore acc b.id g now2)
      (eraseTaskLinks l b.id)
  rw [← hid, eraseTaskLinks_updateTaskTags]

/-! ## Row-overwrite algebra -/

theorem taskUpdateRow_insertRow (a b : TaskRec)
    (hca : a.created_at = b.created_at) :
    taskUpdateRow (taskInsertRow a) b = taskInsertRow b := by
  simp [taskUpdateRow, taskInsertRow, hca]

theorem taskUpdateRow_updateRow (row : TaskRow) (a b : TaskRec) :
    taskUpdateRow (taskUpdateRow row a) b = taskUpdateRow row b := by
  simp [taskUpdateRow]

theorem listUpdateRow_insertRow (a b : ListRec)
    (hca : a.created_at = b.created_at) (hib : a.is_inbox = b.is_inbox) :
    listUpdateRow (listInsertRow a) b = listInsertRow b := by
  simp [listUpdateRow, listInsertRow, hca, hib]

theorem listUpdateRow_updateRow (row : ListRow) (a b : ListRec) :
    listUpdateRow (listUpdateRow row a) b = listUpdateRow row b := by
  simp [listUpdateRow]

/-! ## Stored-timestamp bounds after an upsert -/

theorem upsert_task_stored_ge (now : Nat) (t : TaskRec) (s : St) :
    ∃ row, lookupA (upsert_task now t s).1.tasks t.id = some row ∧
      t.updated_at ≤ row.updated_at := by
  cases h : lookupA s.tasks t.id with
  | none =>
    refine ⟨taskInsertRow t, ?_, Nat.le_refl _⟩
    simp [upsert_task, h, lookupA_setA_self]
  | some row =>
    by_cases hle : t.updated_at ≤ row.updated_at
    · refine ⟨row, ?_, hle⟩
      simp [upsert_task, h, hle]
    · refine ⟨taskUpdateRow row t, ?_, Nat.le_refl _⟩
      simp [upsert_task, h, hle, lookupA_setA_self]

theorem upsert_task_reject_of_ge (now : Nat) (t : TaskRec) (s : St)
    (row : TaskRow) (h : lookupA s.tasks t.id = some row)
    (hge : t.updated_at ≤ row.updated_at) :
    upsert_task now t s = (s, some t.id) := by
  simp [upsert_task, h, hge]

theorem upsert_task_stale (now1 now2 : Nat) (a b : TaskRec) (s : St)
    (hid : a.id = b.id) (hlt : a.updated_at < b.updated_at) :
    upsert_task now2 a (upsert_task now1 b s).1 =
      ((upsert_task now1 b s).1, some a.id) := by
  obtain ⟨row, hl, hge⟩ := upsert_task_stored_ge now1 b s
  have hl' : lookupA (upsert_task now1 b s).1.tasks a.id = some row := by
    rw [hid]
    exact hl
  exact upsert_task_reject_of_ge now2 a _ row hl' (by omega)

theorem upsert_list_stored_ge (l : ListRec) (s : St) :
    ∃ row, lookupA (upsert_list l s).1.lists l.id = some row ∧
      l.updated_at ≤ row.updated_at := by
  cases h : lookupA s.lists l.id with
  | none =>
    refine ⟨listInsertRow l, ?_, Nat.le_refl _⟩
    simp [upsert_list, h, lookupA_setA_self]
  | some row =>
    by_cases hle : l.updated_at ≤ row.updated_at
    · refine ⟨row, ?_, hle⟩
      simp [upsert_list, h, hle]
    · refine ⟨listUpdateRow row l, ?_, Nat.le_refl _⟩
      simp [upsert_list, h, hle, lookupA_setA_self]

theorem upsert_list_reject_of_ge (l : ListRec) (s : St) (row : ListRow)
    (h : lookupA s.lists l.id = some row)
    (hge : l.updated_at ≤ row.updated_at) :
    upsert_list l s = (s, some l.id) := by
  simp [upsert_list, h, hge]

theorem upsert_list_stale (a b : ListRec) (s : St) (hid : a.id = b.id)
    (hlt : a.updated_at < b.updated_at) :
    upsert_list a (upsert_list b s).1 =
      ((upsert_list b s).1, some a.id) := by
  obtain ⟨row, hl, hge⟩ := upsert_list_stored_ge b s
  have hl' : lookupA (upsert_list b s).1.lists a.id = some row := by
    rw [hid]
    exact hl
  exact upsert_list_reject_of_ge a _ row hl' (by omega)

/-- Applying first the stale record and then the fresh one is, up to
observable state, the same as applying the fresh one alone. -/
theorem upsert_task_absorb (now1 now2 : Nat) (a b : TaskRec) (s : St)
    (hid : a.id = b.id) (hca : a.created_at = b.created_at)
    (hlt : a.updated_at < b.updated_at) :
    EquivSt (upsert_task now2 b (upsert_task now1 a s).1).1
      (upsert_task now2 b s).1 := by
  cases h : lookupA s.tasks a.id with
  | none =>
    have h1 : (upsert_task now1 a s).1 =
        { s with
          tasks := setA s.tasks a.id (taskInsertRow a)
          taskTags := updateTaskTags now1 a s.taskTags } := by
      simp [upsert_task, h]
    have hb : lookupA s.tasks b.id = none := by
      rw [← hid]
      exact h
    rw [h1]
    have hlook : lookupA ({ s with
        tasks := setA s.tasks a.id (taskInsertRow a)
        taskTags := updateTaskTags now1 a s.taskTags } : St).tasks b.id =
        some (taskInsertRow a) := by
      show lookupA (setA s.tasks a.id (taskInsertRow a)) b.id = _
      rw [← hid]
      exact lookupA_setA_self ..
    have hnle : ¬ b.updated_at ≤ (taskInsertRow a).updated_at := by
      show ¬ b.updated_at ≤ a.updated_at
      omega
    have h2 : (upsert_task now2 b ({ s with
        tasks := setA s.tasks a.id (taskInsertRow a)
        taskTags := updateTaskTags now1 a s.taskTags } : St)).1 =
        { s with
          tasks := setA (setA s.tasks a.id (taskInsertRow a)) b.id (taskUpdateRow (taskInsertRow a) b)
          taskTags := updateTaskTags now2 b (updateTaskTags now1 a s.taskTags) } := by
      simp [upsert_task, hlook, hnle]
    have h3 : (upsert_task now2 b s).1 =
        { s with
          tasks := setA s.tasks b.id (taskInsertRow b)
          taskTags := updateTaskTags now2 b s.taskTags } := by
      simp [upsert_task, hb]
    rw [h2, h3]
    refine ⟨fun k => rfl, fun k => rfl, ?_, ?_, fun k => rfl⟩
    · show sameTable
        (setA (setA s.tasks a.id (taskInsertRow a)) b.id (taskUpdateRow (taskInsertRow a) b))
        (setA s.tasks b.id (taskInsertRow b))
      rw [taskUpdateRow_insertRow a b hca, hid]
      exact fun k => sameTable_setA_setA _ _ _ _ k
    · show sameTable (updateTaskTags now2 b (updateTaskTags now1 a s.taskTags))
        (updateTaskTags now2 b s.taskTags)
      rw [updateTaskTags_updateTaskTags now1 now2 a b hid]
      exact fun k => rfl
  | some row =>
    by_cases hle : a.updated_at ≤ row.updated_at
    · have h1 : (upsert_task now1 a s).1 = s := by
        simp [upsert_task, h, hle]
      rw [h1]
      exact equivSt_refl _
    · have h1 : (upsert_task now1 a s).1 =
          { s with
            tasks := setA s.tasks a.id (taskUpdateRow row a)
            taskTags := updateTaskTags now1 a s.taskTags } := by
        simp [upsert_task, h, hle]
      have hb : lookupA s.tasks b.id = some row := by
        rw [← hid]
        exact h
      rw [h1]
      have hlook : lookupA ({ s with
          tasks := setA s.tasks a.id (taskUpdateRow row a)
          taskTags := updateTaskTags now1 a s.taskTags } : St).tasks b.id =
          some (taskUpdateRow row a) := by
        show lookupA (setA s.tasks a.id (taskUpdateRow row a)) b.id = _
        rw [← hid]
        exact lookupA_setA_self ..
      have hnle1 : ¬ b.updated_at ≤ (taskUpdateRow row a).updated_at := by
        show ¬ b.updated_at ≤ a.updated_at
        omega
      have hnle2 : ¬ b.updated_at ≤ row.updated_at := by
        rw [Nat.not_le] at hle ⊢
        omega
      have h2 : (upsert_task now2 b ({ s with
          tasks := setA s.tasks a.id (taskUpdateRow row a)
          taskTags := updateTaskTags now1 a s.taskTags } : St)).1 =
          { s with
            tasks := setA (setA s.tasks a.id (taskUpdateRow row a)) b.id (taskUpdateRow (taskUpdateRow row a) b)
            taskTags := updateTaskTags now2 b (updateTaskTags now1 a s.taskTags) } := by
        simp [upsert_task, hlook, hnle1]
      have h3 : (upsert_task now2 b s).1 =
          { s with
            tasks := setA s.tasks b.id (taskUpdateRow row b)
            taskTags := updateTaskTags now2 b s.taskTags } := by
        simp [upsert_task, hb, hnle2]
      rw [h2, h3]
      refine ⟨fun k => rfl, fun k => rfl, ?_, ?_, fun k => rfl⟩
      · show sameTable
          (setA (setA s.tasks a.id (taskUpdateRow row a)) b.id (taskUpdateRow (taskUpdateRow row a) b))
          (setA s.tasks b.id (taskUpdateRow row b))
        rw [taskUpdateRow_updateRow, hid]
        exact fun k => sameTable_setA_setA _ _ _ _ k
      · show sameTable (updateTaskTags now2 b (updateTaskTags now1 a s.taskTags))
          (updateTaskTags now2 b s.taskTags)
        rw [updateTaskTags_updateTaskTags now1 now2 a b hid]
        exact fun k => rfl

/-- List version of the absorption lemma; needs the immutable columns
`created_at` and `is_inbox` to agree, since an insert writes them and an
update preserves them. -/
theorem upsert_list_absorb (a b : ListRec) (s : St) (hid : a.id = b.id)
    (hca : a.created_at = b.created_at) (hib : a.is_inbox = b.is_inbox)
    (hlt : a.updated_at < b.updated_at) :
    EquivSt (upsert_list b (upsert_list a s).1).1 (upsert_list b s).1 := by
  cases h : lookupA s.lists a.id with
  | none =>
    have h1 : (upsert_list a s).1 =
        { s with lists := setA s.lists a.id (listInsertRow a) } := by
      simp [upsert_list, h]
    have hb : lookupA s.lists b.id = none := by
      rw [← hid]
      exact h
    rw [h1]
    have hlook : lookupA ({ s with
        lists := setA s.lists a.id (listInsertRow a) } : St).lists b.id =
        some (listInsertRow a) := by
      show lookupA (setA s.lists a.id (listInsertRow a)) b.id = _
      rw [← hid]
      exact lookupA_setA_self ..
    have hnle : ¬ b.updated_at ≤ (listInsertRow a).updated_at := by
      show ¬ b.updated_at ≤ a.updated_at
      omega
    have h2 : (upsert_list b ({ s with
        lists := setA s.lists a.id (listInsertRow a) } : St)).1 =
        { s with lists := setA (setA s.lists a.id (listInsertRow a)) b.id (listUpdateRow (listInsertRow a) b) } := by
      simp [upsert_list, hlook, hnle]
    have h3 : (upsert_list b s).1 =
        { s with lists := setA s.lists b.id (listInsertRow b) } := by
      simp [upsert_list, hb]
    rw [h2, h3]
    refine ⟨?_, fun k => rfl, fun k => rfl, fun k => rfl, fun k => rfl⟩
    show sameTable
      (setA (setA s.lists a.id (listInsertRow a)) b.id (listUpdateRow (listInsertRow a) b))
      (setA s.lists b.id (listInsertRow b))
    rw [listUpdateRow_insertRow a b hca hib, hid]
    exact fun k => sameTable_setA_setA _ _ _ _ k
  | some row =>
    by_cases hle : a.updated_at ≤ row.updated_at
    · have h1 : (upsert_list a s).1 = s := by
        simp [upsert_list, h, hle]
      rw [h1]
      exact equivSt_refl _
    · have h1 : (upsert_list a s).1 =
          { s with lists := setA s.lists a.id (listUpdateRow row a) } := by
        simp [upsert_list, h, hle]
      have hb : lookupA s.lists b.id = some row := by
        rw [← hid]
        exact h
      rw [h1]
      have hlook : lookupA ({ s with
          lists := setA s.lists a.id (listUpdateRow row a) } : St).lists b.id =
          some (listUpdateRow row a) := by
        show lookupA (setA s.lists a.id (listUpdateRow row a)) b.id = _
        rw [← hid]
        exact lookupA_setA_self ..
      have hnle1 : ¬ b.updated_at ≤ (listUpdateRow row a).updated_at := by
        show ¬ b.updated_at ≤ a.updated_at
        omega
      have hnle2 : ¬ b.updated_at ≤ row.updated_at := by
        rw [Nat.not_le] at hle ⊢
        omega
      have h2 : (upsert_list b ({ s with
          lists := setA s.lists a.id (listUpdateRow row a) } : St)).1 =
          { s with lists := setA (setA s.lists a.id (listUpdateRow row a)) b.id (listUpdateRow (listUpdateRow row a) b) } := by
        simp [upsert_list, hlook, hnle1]
      have h3 : (upsert_list b s).1 =
          { s with lists := setA s.lists b.id (listUpdateRow row b) } := by
        simp [upsert_list, hb, hnle2]
      rw [h2, h3]
      refine ⟨?_, fun k => rfl, fun k => rfl, fun k => rfl, fun k => rfl⟩
      show sameTable
        (setA (setA s.lists a.id (listUpdateRow row a)) b.id (listUpdateRow (listUpdateRow row a) b))
        (setA s.lists b.id (listUpdateRow row b))
      rw [listUpdateRow_updateRow, hid]
      exact fun k => sameTable_setA_setA _ _ _ _ k

/-- C6 counterexample: two Task upserts to the same id with distinct
`updated_at` (5 and 7) but different `created_at` (1 and 2) leave
different stores depending on the order in which the two are applied:
the `created_at` column comes from whichever record was inserted first,
because the UPDATE statement does not overwrite it. -/
theorem c6_order_dependent_counterexample :
    lookupA (apply_changes 0 [SyncRecord.task c6a, SyncRecord.task c6b]
        emptySt).1.tasks 1 ≠
      lookupA (apply_changes 0 [SyncRecord.task c6b, SyncRecord.task c6a]
        emptySt).1.tasks 1 := by
  decide

/-- C6 (amended): for two upserts to the same List or Task id with
distinct `updated_at` that agree on the columns an update never rewrites
(`created_at`; for Lists also `is_inbox`), the final store state is
independent of the order of application, and it equals the state
obtained by applying only the record with the strictly greater
`updated_at` — the record with the smaller timestamp never contributes
to the final state. -/
theorem c6_lww_order_independent :
    (∀ (now : Nat) (s : St) (a b : TaskRec), a.id = b.id →
      a.created_at = b.created_at → a.updated_at ≠ b.updated_at →
      EquivSt (upsert_task now b (upsert_task now a s).1).1
        (upsert_task now a (upsert_task now b s).1).1 ∧
      EquivSt (upsert_task now b (upsert_task now a s).1).1
        (upsert_task now (if a.updated_at < b.updated_at then b else a) s).1) ∧
    (∀ (s : St) (a b : ListRec), a.id = b.id →
      a.created_at = b.created_at → a.is_inbox = b.is_inbox →
      a.updated_at ≠ b.updated_at →
      EquivSt (upsert_list b (upsert_list a s).1).1
        (upsert_list a (upsert_list b s).1).1 ∧
      EquivSt (upsert_list b (upsert_list a s).1).1
        (upsert_list (if a.updated_at < b.updated_at then b else a) s).1) := by
  constructor
  · intro now s a b hid hca hne
    rcases Nat.lt_or_ge a.updated_at b.updated_at with hab | hge
    · have e1 := upsert_task_absorb now now a b s hid hca hab
      have e2 : (upsert_task now a (upsert_task now b s).1).1 =
          (upsert_task now b s).1 := by
        rw [upsert_task_stale now now a b s hid hab]
      refine ⟨equivSt_trans e1 (equivSt_of_eq e2.symm), ?_⟩
      rw [if_pos hab]
      exact e1
    · have hba : b.updated_at < a.updated_at := by omega
      have e1 : (upsert_task now b (upsert_task now a s).1).1 =
          (upsert_task now a s).1 := by
        rw [upsert_task_stale now now b a s hid.symm hba]
      have e2 := upsert_task_absorb now now b a s hid.symm hca.symm hba
      refine ⟨equivSt_trans (equivSt_of_eq e1) (equivSt_symm e2), ?_⟩
      rw [if_neg (by omega : ¬ a.updated_at < b.updated_at)]
      exact equivSt_of_eq e1
  · intro s a b hid hca hib hne
    rcases Nat.lt_or_ge a.updated_at b.updated_at with hab | hge
    · have e1 := upsert_list_absorb a b s hid hca hib hab
      have e2 : (upsert_list a (upsert_list b s).1).1 =
          (upsert_list b s).1 := by
        rw [upsert_list_stale a b s hid hab]
      refine ⟨equivSt_trans e1 (equivSt_of_eq e2.symm), ?_⟩
      rw [if_pos hab]
      exact e1
    · have hba : b.updated_at < a.updated_at := by omega
      have e1 : (upsert_list b (upsert_list a s).1).1 =
          (upsert_list a s).1 := by
        rw [upsert_list_stale b a s hid.symm hba]
      have e2 := upsert_list_absorb b a s hid.symm hca.symm hib.symm hba
      refine ⟨equivSt_trans (equivSt_of_eq e1) (equivSt_symm e2), ?_⟩
      rw [if_neg (by omega : ¬ a.updated_at < b.updated_at)]
      exact equivSt_of_eq e1

/-- Witness for C6 (amended): `c6a` and `c6wb` share id 1 and
created_at 1 and carry timestamps 5 ≠ 7. -/
theorem c6_lww_order_independent_witness :
    EquivSt (upsert_task 0 c6wb (upsert_task 0 c6a emptySt).1).1
      (upsert_task 0 c6a (upsert_task 0 c6wb emptySt).1).1 ∧
    EquivSt (upsert_task 0 c6wb (upsert_task 0 c6a emptySt).1).1
      (upsert_task 0
        (if c6a.updated_at < c6wb.updated_at then c6wb else c6a) emptySt).1 :=
  c6_lww_order_independent.1 0 emptySt c6a c6wb rfl rfl (by decide)

/-! ## Components an upsert never touches -/

theorem upsert_task_lists_eq (now : Nat) (t : TaskRec) (s : St) :
    (upsert_task now t s).1.lists = s.lists := by
  unfold upsert_task
  cases lookupA s.tasks t.id with
  | none => rfl
  | some row =>
    by_cases hle : t.updated_at ≤ row.updated_at <;> simp [hle]

theorem upsert_task_tags_eq (now : Nat) (t : TaskRec) (s : St) :
    (upsert_task now t s).1.tags = s.tags := by
  unfold upsert_task
  cases lookupA s.tasks t.id with
  | none => rfl
  | some row =>
    by_cases hle : t.updated_at ≤ row.updated_at <;> simp [hle]

theorem upsert_task_tombstones_eq (now : Nat) (t : TaskRec) (s : St) :
    (upsert_task now t s).1.tombstones = s.tombstones := by
  unfold upsert_task
  cases lookupA s.tasks t.id with
  | none => rfl
  | some row =>
    by_cases hle : t.updated_at ≤ row.updated_at <;> simp [hle]

theorem upsert_list_tasks_eq (l : ListRec) (s : St) :
    (upsert_list l s).1.tasks = s.tasks := by
  unfold upsert_list
  cases lookupA s.lists l.id with
  | none => rfl
  | some row =>
    by_cases hle : l.updated_at ≤ row.updated_at <;> simp [hle]

theorem upsert_list_tags_eq (l : ListRec) (s : St) :
    (upsert_list l s).1.tags = s.tags := by
  unfold upsert_list
  cases lookupA s.lists l.id with
  | none => rfl
  | some row =>
    by_cases hle : l.updated_at ≤ row.updated_at <;> simp [hle]

theorem upsert_list_taskTags_eq (l : ListRec) (s : St) :
    (upsert_list l s).1.taskTags = s.taskTags := by
  unfold upsert_list
  cases lookupA s.lists l.id with
  | none => rfl
  | some row =>
    by_cases hle : l.updated_at ≤ row.updated_at <;> simp [hle]

theorem upsert_list_tombstones_eq (l : ListRec) (s : St) :
    (upsert_list l s).1.tombstones = s.tombstones := by
  unfold upsert_list
  cases lookupA s.lists l.id with
  | none => rfl
  | some row =>
    by_cases hle : l.updated_at ≤ row.updated_at <;> simp [hle]

/-! ## A lower bound on a stored timestamp survives upsert-only records -/

theorem applyRecord_taskUb (now : Nat) (r : SyncRecord) (s : St)
    (hr : upsertKindOnly r = true) (id ts : Nat) (row : TaskRow)
    (h : lookupA s.tasks id = some row) (hts : ts ≤ row.updated_at) :
    ∃ row', lookupA (applyRecord now s r).1.tasks id = some row' ∧
      ts ≤ row'.updated_at := by
  cases r with
  | task t =>
    by_cases hid : t.id = id
    · subst hid
      by_cases hle : t.updated_at ≤ row.updated_at
      · rw [show applyRecord now s (SyncRecord.task t) = upsert_task now t s
            from rfl, upsert_task_reject_of_ge now t s row h hle]
        exact ⟨row, h, hts⟩
      · have hup : (upsert_task now t s).1.tasks =
            setA s.tasks t.id (taskUpdateRow row t) := by
          simp [upsert_task, h, hle]
        refine ⟨taskUpdateRow row t, ?_, ?_⟩
        · show lookupA (upsert_task now t s).1.tasks t.id = _
          rw [hup]
          exact lookupA_setA_self ..
        · show ts ≤ t.updated_at
          omega
    · have hne : id ≠ t.id := fun he => hid he.symm
      cases hl : lookupA s.tasks t.id with
      | none =>
        have hup : (upsert_task now t s).1.tasks =
            setA s.tasks t.id (taskInsertRow t) := by
          simp [upsert_task, hl]
        refine ⟨row, ?_, hts⟩
        show lookupA (upsert_task now t s).1.tasks id = some row
        rw [hup, lookupA_setA_ne _ _ _ _ hne]
        exact h
      | some row2 =>
        by_cases hle : t.updated_at ≤ row2.updated_at
        · rw [show applyRecord now s (SyncRecord.task t) = upsert_task now t s
              from rfl, upsert_task_reject_of_ge now t s row2 hl hle]
          exact ⟨row, h, hts⟩
        · have hup : (upsert_task now t s).1.tasks =
              setA s.tasks t.id (taskUpdateRow row2 t) := by
            simp [upsert_task, hl, hle]
          refine ⟨row, ?_, hts⟩
          show lookupA (upsert_task now t s).1.tasks id = some row
          rw [hup, lookupA_setA_ne _ _ _ _ hne]
          exact h
  | list l =>
    refine ⟨row, ?_, hts⟩
    show lookupA (upsert_list l s).1.tasks id = some row
    rw [upsert_list_tasks_eq]
    exact h
  | tag g => exact ⟨row, h, hts⟩
  | taskTag lk => simp [upsertKindOnly] at hr
  | deleted i rt dt => simp [upsertKindOnly] at hr

theorem applyRecord_listUb (now : Nat) (r : SyncRecord) (s : St)
    (hr : upsertKindOnly r = true) (id ts : Nat) (row : ListRow)
    (h : lookupA s.lists id = some row) (hts : ts ≤ row.updated_at) :
    ∃ row', lookupA (applyRecord now s r).1.lists id = some row' ∧
      ts ≤ row'.updated_at := by
  cases r with
  | list l =>
    by_cases hid : l.id = id
    · subst hid
      by_cases hle : l.updated_at ≤ row.updated_at
      · rw [show applyRecord now s (SyncRecord.list l) = upsert_list l s
            from rfl, upsert_list_reject_of_ge l s row h hle]
        exact ⟨row, h, hts⟩
      · have hup : (upsert_list l s).1.lists =
            setA s.lists l.id (listUpdateRow row l) := by
          simp [upsert_list, h, hle]
        refine ⟨listUpdateRow row l, ?_, ?_⟩
        · show lookupA (upsert_list l s).1.lists l.id = _
          rw [hup]
          exact lookupA_setA_self ..
        · show ts ≤ l.updated_at
          omega
    · have hne : id ≠ l.id := fun he => hid he.symm
      cases hl : lookupA s.lists l.id with
      | none =>
        have hup : (upsert_list l s).1.lists =
            setA s.lists l.id (listInsertRow l) := by
          simp [upsert_list, hl]
        refine ⟨row, ?_, hts⟩
        show lookupA (upsert_list l s).1.lists id = some row
        rw [hup, lookupA_setA_ne _ _ _ _ hne]
        exact h
      | some row2 =>
        by_cases hle : l.updated_at ≤ row2.updated_at
        · rw [show applyRecord now s (SyncRecord.list l) = upsert_list l s
              from rfl, upsert_list_reject_of_ge l s row2 hl hle]
          exact ⟨row, h, hts⟩
        · have hup : (upsert_list l s).1.lists =
              setA s.lists l.id (listUpdateRow row2 l) := by
            simp [upsert_list, hl, hle]
          refine ⟨row, ?_, hts⟩
          show lookupA (upsert_list l s).1.lists id = some row
          rw [hup, lookupA_setA_ne _ _ _ _ hne]
          exact h
  | task t =>
    refine ⟨row, ?_, hts⟩
    show lookupA (upsert_task now t s).1.lists id = some row
    rw [upsert_task_lists_eq]
    exact h
  | tag g => exact ⟨row, h, hts⟩
  | taskTag lk => simp [upsertKindOnly] at hr
  | deleted i rt dt => simp [upsertKindOnly] at hr

theorem apply_changes_taskUb_preserve (now : Nat) :
    ∀ (B : List SyncRecord) (s : St), B.all upsertKindOnly = true →
      ∀ (id ts : Nat),
        (∃ row, lookupA s.tasks id = some row ∧ ts ≤ row.updated_at) →
        ∃ row', lookupA (apply_changes now B s).1.tasks id = some row' ∧
          ts ≤ row'.updated_at := by
  intro B
  induction B with
  | nil => intro s _ id ts h; exact h
  | cons r rest ih =>
    intro s hall id ts h
    rw [List.all_cons, Bool.and_eq_true] at hall
    obtain ⟨row, hl, hts⟩ := h
    exact ih (applyRecord now s r).1 hall.2 id ts
      (applyRecord_taskUb now r s hall.1 id ts row hl hts)

theorem apply_changes_listUb_preserve (now : Nat) :
    ∀ (B : List SyncRecord) (s : St), B.all upsertKindOnly = true →
      ∀ (id ts : Nat),
        (∃ row, lookupA s.lists id = some row ∧ ts ≤ row.updated_at) →
        ∃ row', lookupA (apply_changes now B s).1.lists id = some row' ∧
          ts ≤ row'.updated_at := by
  intro B
  induction B with
  | nil => intro s _ id ts h; exact h
  | cons r rest ih =>
    intro s hall id ts h
    rw [List.all_cons, Bool.and_eq_true] at hall
    obtain ⟨row, hl, hts⟩ := h
    exact ih (applyRecord now s r).1 hall.2 id ts
      (applyRecord_listUb now r s hall.1 id ts row hl hts)

/-- After the first pass over an upsert-only batch, every Task record of
the batch has a stored row at its id at least as new as itself. -/
theorem apply_changes_taskUb (now : Nat) :
    ∀ (B : List SyncRecord) (s : St), B.all upsertKindOnly = true →
      ∀ t : TaskRec, SyncRecord.task t ∈ B →
        ∃ row, lookupA (apply_changes now B s).1.tasks t.id = some row ∧
          t.updated_at ≤ row.updated_at := by
  intro B
  induction B with
  | nil => intro s _ t hmem; simp at hmem
  | cons r rest ih =>
    intro s hall t hmem
    rw [List.all_cons, Bool.and_eq_true] at hall
    rcases List.mem_cons.mp hmem with heq | hmem'
    · subst heq
      exact apply_changes_taskUb_preserve now rest
        (applyRecord now s (SyncRecord.task t)).1 hall.2 t.id t.updated_at
        (upsert_task_stored_ge now t s)
    · exact ih (applyRecord now s r).1 hall.2 t hmem'

theorem apply_changes_listUb (now : Nat) :
    ∀ (B : List SyncRecord) (s : St), B.all upsertKindOnly = true →
      ∀ l : ListRec, SyncRecord.list l ∈ B →
        ∃ row, lookupA (apply_changes now B s).1.lists l.id = some row ∧
          l.updated_at ≤ row.updated_at := by
  intro B
  induction B with
  | nil => intro s _ l hmem; simp at hmem
  | cons r rest ih =>
    intro s hall l hmem
    rw [List.all_cons, Bool.and_eq_true] at hall
    rcases List.mem_cons.mp hmem with heq | hmem'
    · subst heq
      exact apply_changes_listUb_preserve now rest
        (applyRecord now s (SyncRecord.list l)).1 hall.2 l.id l.updated_at
        (upsert_list_stored_ge l s)
    · exact ih (applyRecord now s r).1 hall.2 l hmem'

/-! ## The tags table after a batch is a per-id last-write replay -/

theorem apply_changes_tags_lookup (now : Nat) :
    ∀ (B : List SyncRecord) (s : St) (g : Nat),
      B.all upsertKindOnly = true →
      lookupA (apply_changes now B s).1.tags g =
        tagFoldl B g (lookupA s.tags g) := by
  intro B
  induction B with
  | nil => intro s g _; rfl
  | cons r rest ih =>
    intro s g hall
    rw [List.all_cons, Bool.and_eq_true] at hall
    cases r with
    | tag tg =>
      have hstep : lookupA (upsert_tag tg s).tags g =
          if tg.id = g then some ⟨tg.name, tg.color, tg.created_at⟩
          else lookupA s.tags g := by
        by_cases hg : tg.id = g
        · rw [if_pos hg, ← hg]
          exact lookupA_setA_self ..
        · rw [if_neg hg]
          exact lookupA_setA_ne _ _ _ _ (fun he => hg he.symm)
      calc lookupA (apply_changes now (SyncRecord.tag tg :: rest) s).1.tags g
          = tagFoldl rest g (lookupA (upsert_tag tg s).tags g) :=
            ih (upsert_tag tg s) g hall.2
        _ = tagFoldl rest g (if tg.id = g
              then some ⟨tg.name, tg.color, tg.created_at⟩
              else lookupA s.tags g) := by rw [hstep]
        _ = tagFoldl (SyncRecord.tag tg :: rest) g (lookupA s.tags g) := rfl
    | task t =>
      calc lookupA (apply_changes now (SyncRecord.task t :: rest) s).1.tags g
          = tagFoldl rest g
              (lookupA (applyRecord now s (SyncRecord.task t)).1.tags g) :=
            ih _ g hall.2
        _ = tagFoldl rest g (lookupA s.tags g) := by
            rw [show (applyRecord now s (SyncRecord.task t)).1.tags = s.tags
              from upsert_task_tags_eq now t s]
        _ = tagFoldl (SyncRecord.task t :: rest) g (lookupA s.tags g) := rfl
    | list l =>
      calc lookupA (apply_changes now (SyncRecord.list l :: rest) s).1.tags g
          = tagFoldl rest g
              (lookupA (applyRecord now s (SyncRecord.list l)).1.tags g) :=
            ih _ g hall.2
        _ = tagFoldl rest g (lookupA s.tags g) := by
            rw [show (applyRecord now s (SyncRecord.list l)).1.tags = s.tags
              from upsert_list_tags_eq l s]
        _ = tagFoldl (SyncRecord.list l :: rest) g (lookupA s.tags g) := rfl
    | taskTag lk => simp [upsertKindOnly] at hall
    | deleted i rt dt => simp [upsertKindOnly] at hall

/-- Replaying a batch over the tags table either leaves every starting
value alone or forces a fixed final row, per tag id. -/
theorem tagFoldl_const_or_id (B : List SyncRecord) (g : Nat) :
    (∀ o, tagFoldl B g o = o) ∨ (∃ v, ∀ o, tagFoldl B g o = some v) := by
  induction B with
  | nil => exact Or.inl (fun o => rfl)
  | cons r rest ih =>
    cases r with
    | tag tg =>
      by_cases hg : tg.id = g
      · have hstep : ∀ o, tagFoldl (SyncRecord.tag tg :: rest) g o =
            tagFoldl rest g (some ⟨tg.name, tg.color, tg.created_at⟩) := by
          intro o
          show tagFoldl rest g
            (if tg.id = g then some ⟨tg.name, tg.color, tg.created_at⟩ else o) = _
          rw [if_pos hg]
        rcases ih with hid | ⟨v, hv⟩
        · exact Or.inr ⟨⟨tg.name, tg.color, tg.created_at⟩,
            fun o => (hstep o).trans (hid _)⟩
        · exact Or.inr ⟨v, fun o => (hstep o).trans (hv _)⟩
      · have hstep : ∀ o, tagFoldl (SyncRecord.tag tg :: rest) g o =
            tagFoldl rest g o := by
          intro o
          show tagFoldl rest g
            (if tg.id = g then some ⟨tg.name, tg.color, tg.created_at⟩ else o) = _
          rw [if_neg hg]
        rcases ih with hid | ⟨v, hv⟩
        · exact Or.inl (fun o => (hstep o).trans (hid o))
        · exact Or.inr ⟨v, fun o => (hstep o).trans (hv o)⟩
    | task t =>
      rcases ih with hid | ⟨v, hv⟩
      · exact Or.inl (fun o => hid o)
      · exact Or.inr ⟨v, fun o => hv o⟩
    | list l =>
      rcases ih with hid | ⟨v, hv⟩
      · exact Or.inl (fun o => hid o)
      · exact Or.inr ⟨v, fun o => hv o⟩
    | taskTag lk =>
      rcases ih with hid | ⟨v, hv⟩
      · exact Or.inl (fun o => hid o)
      · exact Or.inr ⟨v, fun o => hv o⟩
    | deleted i rt dt =>
      rcases ih with hid | ⟨v, hv⟩
      · exact Or.inl (fun o => hid o)
      · exact Or.inr ⟨v, fun o => hv o⟩

theorem tagFoldl_idem (B : List SyncRecord) (g : Nat) (o : Option TagRow) :
    tagFoldl B g (tagFoldl B g o) = tagFoldl B g o := by
  rcases tagFoldl_const_or_id B g with hid | ⟨v, hv⟩
  · exact hid _
  · exact (hv _).trans (hv o).symm

/-! ## The second pass over an already-absorbed upsert-only batch -/

theorem apply_changes_second_pass (now : Nat) :
    ∀ (B : List SyncRecord) (s : St),
      B.all upsertKindOnly = true →
      (∀ t : TaskRec, SyncRecord.task t ∈ B →
        ∃ row, lookupA s.tasks t.id = some row ∧
          t.updated_at ≤ row.updated_at) →
      (∀ l : ListRec, SyncRecord.list l ∈ B →
        ∃ row, lookupA s.lists l.id = some row ∧
          l.updated_at ≤ row.updated_at) →
      (apply_changes now B s).1.tasks = s.tasks ∧
      (apply_changes now B s).1.lists = s.lists ∧
      (apply_changes now B s).1.taskTags = s.taskTags ∧
      (apply_changes now B s).1.tombstones = s.tombstones ∧
      (∀ t : TaskRec, SyncRecord.task t ∈ B →
        t.id ∈ (apply_changes now B s).2) ∧
      (∀ l : ListRec, SyncRecord.list l ∈ B →
        l.id ∈ (apply_changes now B s).2) := by
  intro B
  induction B with
  | nil =>
    intro s _ _ _
    refine ⟨rfl, rfl, rfl, rfl, ?_, ?_⟩ <;> intro x hx <;> simp at hx
  | cons r rest ih =>
    intro s hall hTask hList
    rw [List.all_cons, Bool.and_eq_true] at hall
    cases r with
    | task t =>
      obtain ⟨row, hlk, hge⟩ := hTask t (List.mem_cons_self ..)
      have hrej : upsert_task now t s = (s, some t.id) :=
        upsert_task_reject_of_ge now t s row hlk hge
      have hACeq : apply_changes now (SyncRecord.task t :: rest) s =
          ((apply_changes now rest s).1,
            t.id :: (apply_changes now rest s).2) := by
        rw [apply_changes_cons]
        rw [show applyRecord now s (SyncRecord.task t) = (s, some t.id)
          from hrej]
        rfl
      obtain ⟨e1, e2, e3, e4, m1, m2⟩ := ih s hall.2
        (fun t' ht' => hTask t' (List.mem_cons_of_mem _ ht'))
        (fun l' hl' => hList l' (List.mem_cons_of_mem _ hl'))
      refine ⟨by rw [hACeq]; exact e1, by rw [hACeq]; exact e2,
        by rw [hACeq]; exact e3, by rw [hACeq]; exact e4, ?_, ?_⟩
      · intro t' ht'
        rw [hACeq]
        rcases List.mem_cons.mp ht' with heq | hmem'
        · injection heq with he
          rw [he]
          exact List.mem_cons_self ..
        · exact List.mem_cons_of_mem _ (m1 t' hmem')
      · intro l' hl'
        rw [hACeq]
        rcases List.mem_cons.mp hl' with heq | hmem'
        · exact SyncRecord.noConfusion heq
        · exact List.mem_cons_of_mem _ (m2 l' hmem')
    | list l =>
      obtain ⟨row, hlk, hge⟩ := hList l (List.mem_cons_self ..)
      have hrej : upsert_list l s = (s, some l.id) :=
        upsert_list_reject_of_ge l s row hlk hge
      have hACeq : apply_changes now (SyncRecord.list l :: rest) s =
          ((apply_changes now rest s).1,
            l.id :: (apply_changes now rest s).2) := by
        rw [apply_changes_cons]
        rw [show applyRecord now s (SyncRecord.list l) = (s, some l.id)
          from hrej]
        rfl
      obtain ⟨e1, e2, e3, e4, m1, m2⟩ := ih s hall.2
        (fun t' ht' => hTask t' (List.mem_cons_of_mem _ ht'))
        (fun l' hl' => hList l' (List.mem_cons_of_mem _ hl'))
      refine ⟨by rw [hACeq]; exact e1, by rw [hACeq]; exact e2,
        by rw [hACeq]; exact e3, by rw [hACeq]; exact e4, ?_, ?_⟩
      · intro t' ht'
        rw [hACeq]
        rcases List.mem_cons.mp ht' with heq | hmem'
        · exact SyncRecord.noConfusion heq
        · exact List.mem_cons_of_mem _ (m1 t' hmem')
      · intro l' hl'
        rw [hACeq]
        rcases List.mem_cons.mp hl' with heq | hmem'
        · injection heq with he
          rw [he]
          exact List.mem_cons_self ..
        · exact List.mem_cons_of_mem _ (m2 l' hmem')
    | tag tg =>
      obtain ⟨e1, e2, e3, e4, m1, m2⟩ := ih (upsert_tag tg s) hall.2
        (fun t' ht' => hTask t' (List.mem_cons_of_mem _ ht'))
        (fun l' hl' => hList l' (List.mem_cons_of_mem _ hl'))
      refine ⟨e1, e2, e3, e4, ?_, ?_⟩
      · intro t' ht'
        rcases List.mem_cons.mp ht' with heq | hmem'
        · exact SyncRecord.noConfusion heq
        · exact m1 t' hmem'
      · intro l' hl'
        rcases List.mem_cons.mp hl' with heq | hmem'
        · exact SyncRecord.noConfusion heq
        · exact m2 l' hmem'
    | taskTag lk => simp [upsertKindOnly] at hall
    | deleted i rt dt => simp [upsertKindOnly] at hall

/-- C7 counterexample: applying the batch `c7Batch` (a TaskTag Deletion
for task 1 then a Task record for id 1 carrying tag 2) twice is not
idempotent: after the first application the link (1, 2) is stored, after
the second it is gone — the Deletion wipes the links again and the now
rejected Task record returns before rebuilding them. -/
theorem c7_not_idempotent_counterexample :
    lookupA c7s1.taskTags (1, 2) = some ⟨0⟩ ∧
    lookupA c7s2.taskTags (1, 2) = none := by
  decide

/-- C7 (amended): for a batch containing only List, Tag and Task upsert
records (no Deletions, no TaskTagLinks), applying the batch twice leaves
the store state after the second application equal to the state after
the first, and the second application's conflict list contains the id of
every List and Task record of the batch — in particular every id
accepted by the first application. (Tag records, though always applied,
are never reported as conflicts.) -/
theorem c7_idempotent_upsert_batches (now1 now2 : Nat)
    (B : List SyncRecord) (s : St) (hall : B.all upsertKindOnly = true) :
    EquivSt (apply_changes now2 B (apply_changes now1 B s).1).1
      (apply_changes now1 B s).1 ∧
    (∀ t : TaskRec, SyncRecord.task t ∈ B →
      t.id ∈ (apply_changes now2 B (apply_changes now1 B s).1).2) ∧
    (∀ l : ListRec, SyncRecord.list l ∈ B →
      l.id ∈ (apply_changes now2 B (apply_changes now1 B s).1).2) := by
  have hTask := apply_changes_taskUb now1 B s hall
  have hList := apply_changes_listUb now1 B s hall
  obtain ⟨e1, e2, e3, e4, m1, m2⟩ :=
    apply_changes_second_pass now2 B (apply_changes now1 B s).1 hall hTask hList
  refine ⟨⟨fun k => by rw [e2], ?_, fun k => by rw [e1],
    fun k => by rw [e3], fun k => by rw [e4]⟩, m1, m2⟩
  intro k
  calc lookupA (apply_changes now2 B (apply_changes now1 B s).1).1.tags k
      = tagFoldl B k (lookupA (apply_changes now1 B s).1.tags k) :=
        apply_changes_tags_lookup now2 B _ k hall
    _ = tagFoldl B k (tagFoldl B k (lookupA s.tags k)) := by
        rw [apply_changes_tags_lookup now1 B s k hall]
    _ = tagFoldl B k (lookupA s.tags k) := tagFoldl_idem ..
    _ = lookupA (apply_changes now1 B s).1.tags k :=
        (apply_changes_tags_lookup now1 B s k hall).symm

/-- Witness for C7 (amended): the mixed List/Tag/Task batch `c7wBatch`
applied twice over the empty store. -/
theorem c7_idempotent_upsert_batches_witness :
    c7wBatch.all upsertKindOnly = true ∧
    (EquivSt (apply_changes 1 c7wBatch (apply_changes 0 c7wBatch emptySt).1).1
      (apply_changes 0 c7wBatch emptySt).1 ∧
    (∀ t : TaskRec, SyncRecord.task t ∈ c7wBatch →
      t.id ∈ (apply_changes 1 c7wBatch (apply_changes 0 c7wBatch emptySt).1).2) ∧
    (∀ l : ListRec, SyncRecord.list l ∈ c7wBatch →
      l.id ∈ (apply_changes 1 c7wBatch (apply_changes 0 c7wBatch emptySt).1).2)) :=
  ⟨by decide, c7_idempotent_upsert_batches 0 1 c7wBatch emptySt (by decide)⟩

end TickitSync
